import Mathlib

set_option maxRecDepth 8000

namespace AptRepo

/-- One parsed dependency alternative of a `Depends`/`Pre-Depends` entry, the parsed
form `name[:arch][ (OP version)]` produced by `BinaryPackageDependency.re_dependency`
in `apt_repo/__init__.py`.  The regular expression only ever yields the operators
`>>`, `<<`, `>=` and `=`, so any theorem about parsed alternatives may assume the
operator is one of those four strings. -/
structure DependencyAlt where
  package_name : String
  architecture : Option String
  constraint : Option (String × String)
deriving DecidableEq, Repr

/-- `BinaryPackageDependency` from `apt_repo/__init__.py`: either a plain alternative
or a list of OR-alternatives (`or_dependencies`, obtained by splitting on `|`;
each piece is itself a plain alternative, nesting cannot occur). -/
inductive BinaryPackageDependency where
  | alt (a : DependencyAlt)
  | orDep (alts : List DependencyAlt)
deriving DecidableEq, Repr

/-- `BinaryPackage` from `apt_repo/__init__.py`, in its parsed-field view.
`oid` models the Python object identity (`id()`); the class defines no `__eq__` or
`__hash__`, so Python set membership for these records is object identity, which we
model by `oid` (distinct parsed records have distinct `oid`s in a real run).
The remaining fields are the stanza accessors: `package`, `version`, `architecture`,
`provides`, `depends`, `predepends`, `recommends` (raw field text, if present),
`filename`, `size`, `sha1` and the owning repository's URL (`repository.url`). -/
structure BinaryPackage where
  oid : Nat
  package : String
  version : String
  architecture : String
  provides : List String
  depends : List BinaryPackageDependency
  predepends : List BinaryPackageDependency
  recommends : Option String
  filename : String
  size : Nat
  sha1 : String
  repoUrl : String
deriving DecidableEq, Repr

/-- The body of `BinaryPackageDependency.fulfilled` for an alternative without
OR-alternatives.  `cmp` is the external Debian version comparator
(`pydpkg.Dpkg.compare_versions`), kept abstract as in the specification's boundary.
Mirrors the source line by line: the name test (own name or provides), the
`constraint is None` early return, then the four operator branches, and the final
unreachable `return False` for any other operator string. -/
def altFulfilled (cmp : String → String → Int) (a : DependencyAlt) (p : BinaryPackage) : Bool :=
  if a.package_name ≠ p.package ∧ a.package_name ∉ p.provides then false
  else
    match a.constraint with
    | none => true
    | some (op, v) =>
      if op = ">=" then decide (0 ≤ cmp p.version v)
      else if op = "=" then decide (cmp p.version v = 0)
      else if op = "<<" then decide (cmp p.version v < 0)
      else if op = ">>" then decide (0 < cmp p.version v)
      else false

/-- `BinaryPackageDependency.fulfilled`: an OR-dependency is fulfilled when any of
its alternatives is. -/
def fulfilled (cmp : String → String → Int) :
    BinaryPackageDependency → BinaryPackage → Bool
  | .alt a, p => altFulfilled cmp a p
  | .orDep as, p => as.any (fun a => altFulfilled cmp a p)

/-- Modelled from the spec's wording for comparison: "the three-way Debian version
comparison of the candidate's version against the alternative's version satisfies
the operator: `>=` at least, `=` exact, `<<` strictly less, `>>` strictly greater". -/
def specOpSatisfied (op : String) (c : Int) : Prop :=
  (op = ">=" ∧ 0 ≤ c) ∨ (op = "=" ∧ c = 0) ∨ (op = "<<" ∧ c < 0) ∨ (op = ">>" ∧ 0 < c)

/-- C1: for every `DependencyAlternative` without OR-alternatives and every candidate
package, `fulfilled(candidate)` is true if and only if (the candidate's package name
equals the target name, or the target name occurs in the candidate's provides list)
and (the alternative carries no version constraint, or the three-way Debian version
comparison of the candidate's version against the alternative's version satisfies
the operator).  The hypothesis records that the parser's regular expression only
produces the four operators. -/
theorem c1_fulfilled_iff (cmp : String → String → Int) (a : DependencyAlt)
    (p : BinaryPackage)
    (hop : ∀ op v, a.constraint = some (op, v) →
      op = ">=" ∨ op = "=" ∨ op = "<<" ∨ op = ">>") :
    fulfilled cmp (.alt a) p = true ↔
      ((a.package_name = p.package ∨ a.package_name ∈ p.provides) ∧
        (a.constraint = none ∨
          ∃ op v, a.constraint = some (op, v) ∧ specOpSatisfied op (cmp p.version v))) := by
  show altFulfilled cmp a p = true ↔ _
  unfold altFulfilled
  by_cases hname : a.package_name ≠ p.package ∧ a.package_name ∉ p.provides
  · rw [if_pos hname]
    constructor
    · intro h; exact absurd h (by simp)
    · rintro ⟨hn, -⟩
      rcases hn with hn | hn
      · exact absurd hn hname.1
      · exact absurd hn hname.2
  · rw [if_neg hname]
    push_neg at hname
    have hn : a.package_name = p.package ∨ a.package_name ∈ p.provides := by
      by_cases h : a.package_name = p.package
      · exact Or.inl h
      · exact Or.inr (hname h)
    cases hc : a.constraint with
    | none => simp [hn]
    | some ov =>
      obtain ⟨op, v⟩ := ov
      rcases hop op v hc with hop4 | hop4 | hop4 | hop4 <;> subst hop4 <;>
        simp [specOpSatisfied, hn] <;>
        constructor <;>
        first
        | (intro h; exact ⟨_, _, ⟨rfl, rfl⟩, by simp [h]⟩)
        | (rintro ⟨o, w, ⟨ho, hw⟩, hs⟩
           subst ho; subst hw
           simpa using hs)

/-- A fixed concrete comparator used only to instantiate abstract-comparator
theorems on concrete data in closed corollaries. -/
def cmpDemo : String → String → Int := fun a b => Int.ofNat a.length - Int.ofNat b.length

/-- C1 closed corollary: the characterization evaluated at a concrete alternative
`libc (>= 2.0)` and a concrete candidate. -/
theorem c1_fulfilled_iff_witness :
    fulfilled cmpDemo (.alt ⟨"libc", none, some (">=", "2.0")⟩)
        ⟨1, "libc", "2.5", "amd64", [], [], [], none, "f", 0, "s", "u"⟩ = true ↔
      (((⟨"libc", none, some (">=", "2.0")⟩ : DependencyAlt).package_name =
          (⟨1, "libc", "2.5", "amd64", [], [], [], none, "f", 0, "s", "u"⟩ :
            BinaryPackage).package ∨
        (⟨"libc", none, some (">=", "2.0")⟩ : DependencyAlt).package_name ∈
          (⟨1, "libc", "2.5", "amd64", [], [], [], none, "f", 0, "s", "u"⟩ :
            BinaryPackage).provides) ∧
        ((⟨"libc", none, some (">=", "2.0")⟩ : DependencyAlt).constraint = none ∨
          ∃ op v,
            (⟨"libc", none, some (">=", "2.0")⟩ : DependencyAlt).constraint =
              some (op, v) ∧
            specOpSatisfied op
              (cmpDemo
                (⟨1, "libc", "2.5", "amd64", [], [], [], none, "f", 0, "s", "u"⟩ :
                  BinaryPackage).version v))) :=
  c1_fulfilled_iff cmpDemo ⟨"libc", none, some (">=", "2.0")⟩
    ⟨1, "libc", "2.5", "amd64", [], [], [], none, "f", 0, "s", "u"⟩
    (by intro op v h; cases h; exact Or.inl rfl)

/-- A concrete alternative `v (= 1)` targeting the virtual name `v`. -/
def altOnV : DependencyAlt := ⟨"v", none, some ("=", "1")⟩

/-- A concrete package named `p` at version `1` that provides the virtual name `v`. -/
def pkgProvidingV : BinaryPackage :=
  ⟨7, "p", "1", "amd64", ["v"], [], [], none, "pool/p.deb", 3, "hp", "http://r"⟩

/-- A comparator that regards every pair of versions as equal; any comparator with
`cmpEq "1" "1" = 0` gives the same counterexample. -/
def cmpEq : String → String → Int := fun _ _ => 0

/-- C8 counterexample: with the alternative `v (= 1)` and a candidate named `p`
providing `v` at version `1`, `fulfilled` is true although the candidate's name does
not equal the target name, so "fulfilled(pkg) iff pkg's name equals the target name
and the comparison yields 0" fails in the left-to-right direction. -/
theorem c8_counterexample :
    fulfilled cmpEq (.alt altOnV) pkgProvidingV = true ∧
      ¬(pkgProvidingV.package = altOnV.package_name ∧
        cmpEq pkgProvidingV.version "1" = 0) := by
  constructor
  · decide
  · intro h
    exact absurd h.1 (by decide)

/-- C8 amended: for every `DependencyAlternative` carrying a version constraint with
operator `=`, `fulfilled(pkg)` holds iff (pkg's name equals the target name **or**
the target name occurs in pkg's provides list) and the three-way comparison yields 0;
the analogous equivalences hold for `>=`, `<<` and `>>`.  (The original claim omitted
the provides disjunct, which the code's name test includes.) -/
theorem c8_amended_operator_laws (cmp : String → String → Int) (a : DependencyAlt)
    (p : BinaryPackage) (op v : String) (hc : a.constraint = some (op, v)) :
    (op = "=" → (fulfilled cmp (.alt a) p = true ↔
      ((a.package_name = p.package ∨ a.package_name ∈ p.provides) ∧
        cmp p.version v = 0))) ∧
    (op = ">=" → (fulfilled cmp (.alt a) p = true ↔
      ((a.package_name = p.package ∨ a.package_name ∈ p.provides) ∧
        0 ≤ cmp p.version v))) ∧
    (op = "<<" → (fulfilled cmp (.alt a) p = true ↔
      ((a.package_name = p.package ∨ a.package_name ∈ p.provides) ∧
        cmp p.version v < 0))) ∧
    (op = ">>" → (fulfilled cmp (.alt a) p = true ↔
      ((a.package_name = p.package ∨ a.package_name ∈ p.provides) ∧
        0 < cmp p.version v))) := by
  refine ⟨?_, ?_, ?_, ?_⟩ <;> intro hop <;> subst hop <;>
    (show altFulfilled cmp a p = true ↔ _) <;>
    unfold altFulfilled <;> rw [hc] <;>
    by_cases hname : a.package_name ≠ p.package ∧ a.package_name ∉ p.provides
  · rw [if_pos hname]
    simp only [Bool.false_eq_true, false_iff]
    rintro ⟨hn | hn, -⟩
    · exact hname.1 hn
    · exact hname.2 hn
  · rw [if_neg hname]
    push_neg at hname
    have hn : a.package_name = p.package ∨ a.package_name ∈ p.provides := by
      by_cases h : a.package_name = p.package
      · exact Or.inl h
      · exact Or.inr (hname h)
    simp [hn]
  · rw [if_pos hname]
    simp only [Bool.false_eq_true, false_iff]
    rintro ⟨hn | hn, -⟩
    · exact hname.1 hn
    · exact hname.2 hn
  · rw [if_neg hname]
    push_neg at hname
    have hn : a.package_name = p.package ∨ a.package_name ∈ p.provides := by
      by_cases h : a.package_name = p.package
      · exact Or.inl h
      · exact Or.inr (hname h)
    simp [hn]
  · rw [if_pos hname]
    simp only [Bool.false_eq_true, false_iff]
    rintro ⟨hn | hn, -⟩
    · exact hname.1 hn
    · exact hname.2 hn
  · rw [if_neg hname]
    push_neg at hname
    have hn : a.package_name = p.package ∨ a.package_name ∈ p.provides := by
      by_cases h : a.package_name = p.package
      · exact Or.inl h
      · exact Or.inr (hname h)
    simp [hn]
  · rw [if_pos hname]
    simp only [Bool.false_eq_true, false_iff]
    rintro ⟨hn | hn, -⟩
    · exact hname.1 hn
    · exact hname.2 hn
  · rw [if_neg hname]
    push_neg at hname
    have hn : a.package_name = p.package ∨ a.package_name ∈ p.provides := by
      by_cases h : a.package_name = p.package
      · exact Or.inl h
      · exact Or.inr (hname h)
    simp [hn]

/-- C8 amended, closed corollary: the `=` law evaluated on the concrete
provides-candidate. -/
theorem c8_amended_operator_laws_witness :
    fulfilled cmpEq (.alt altOnV) pkgProvidingV = true ↔
      ((altOnV.package_name = pkgProvidingV.package ∨
          altOnV.package_name ∈ pkgProvidingV.provides) ∧
        cmpEq pkgProvidingV.version "1" = 0) :=
  (c8_amended_operator_laws cmpEq altOnV pkgProvidingV "=" "1" rfl).1 rfl

/-- Addition to a Python `set` of `BinaryPackage` records.  The class defines no
`__eq__`/`__hash__`, so the set is keyed on object identity, modelled by `oid`;
insertion order of a set is unspecified in Python, we record elements in insertion
order. -/
def pySetAdd (s : List BinaryPackage) (p : BinaryPackage) : List BinaryPackage :=
  if s.any (fun q => q.oid == p.oid) then s else s ++ [p]

/-- One step of building `_cache_packages`: append `pack` to the (ordered) list under
key `k`, creating the key if absent — `dict` semantics with list values. -/
def mapAppend (m : List (String × List BinaryPackage)) (k : String) (p : BinaryPackage) :
    List (String × List BinaryPackage) :=
  if m.any (fun e => e.1 == k) then
    m.map (fun e => if e.1 == k then (e.1, e.2 ++ [p]) else e)
  else m ++ [(k, [p])]

/-- One step of building `_cache_provided_packages`: add `pack` to the identity-keyed
set under key `k`, creating the key (as a singleton set) if absent. -/
def mapAdd (m : List (String × List BinaryPackage)) (k : String) (p : BinaryPackage) :
    List (String × List BinaryPackage) :=
  if m.any (fun e => e.1 == k) then
    m.map (fun e => if e.1 == k then (e.1, pySetAdd e.2 p) else e)
  else m ++ [(k, [p])]

/-- `dict.get(k, [])` on the association-list model of a Python `dict`. -/
def lookupMap (m : List (String × List BinaryPackage)) (k : String) : List BinaryPackage :=
  match m.find? (fun e => e.1 == k) with
  | some e => e.2
  | none => []

/-- The loop of `APTRepository.packages` building `_cache_packages`: iterate the
fetched packages in order and append each under its `Package` name. -/
def buildPackagesAux : List BinaryPackage → List (String × List BinaryPackage) →
    List (String × List BinaryPackage)
  | [], m => m
  | p :: ps, m => buildPackagesAux ps (mapAppend m p.package p)

/-- The `_cache_packages` dict of `APTRepository.packages`, starting from `{}`. -/
def buildPackages (flat : List BinaryPackage) : List (String × List BinaryPackage) :=
  buildPackagesAux flat []

/-- Innermost loop of building `_cache_provided_packages`:
`for provides in [name] + pack.provides:` add `pack` under each such name. -/
def provNamesAdd (p : BinaryPackage) : List String →
    List (String × List BinaryPackage) → List (String × List BinaryPackage)
  | [], acc => acc
  | n :: ns, acc => provNamesAdd p ns (mapAdd acc n p)

/-- Middle loop of building `_cache_provided_packages`: `for pack in packs:`. -/
def provPacksAdd (k : String) : List BinaryPackage →
    List (String × List BinaryPackage) → List (String × List BinaryPackage)
  | [], acc => acc
  | p :: ps, acc => provPacksAdd k ps (provNamesAdd p (k :: p.provides) acc)

/-- Outer loop of building `_cache_provided_packages`:
`for name, packs in self._cache_packages.items():`. -/
def buildProvidedFromMapAux : List (String × List BinaryPackage) →
    List (String × List BinaryPackage) → List (String × List BinaryPackage)
  | [], acc => acc
  | e :: es, acc => buildProvidedFromMapAux es (provPacksAdd e.1 e.2 acc)

/-- The `_cache_provided_packages` dict of `APTRepository.packages`, built from the
`_cache_packages` dict, starting from `{}`. -/
def buildProvidedFromMap (m : List (String × List BinaryPackage)) :
    List (String × List BinaryPackage) :=
  buildProvidedFromMapAux m []

/-- Both cache maps are determined by the flat fetched package list. -/
def buildProvided (flat : List BinaryPackage) : List (String × List BinaryPackage) :=
  buildProvidedFromMap (buildPackages flat)

/-- `APTRepository.get_provided`: look the name up in the provided-name index. -/
def get_provided (flat : List BinaryPackage) (n : String) : List BinaryPackage :=
  lookupMap (buildProvided flat) n

/-- `dependency.package_name`: a single name for a plain alternative, the list of
alternative names for an OR-dependency (normalised to a list, as the caller
`packages_fulfilling` does with `isinstance(names, str)`). -/
def depNames : BinaryPackageDependency → List String
  | .alt a => [a.package_name]
  | .orDep as => as.map (fun a => a.package_name)

/-- `APTRepository.packages_fulfilling`: for each target name of the dependency,
yield every package of the provided-name index under that name that fulfills the
dependency.  A repository is represented by its flat fetched package list. -/
def packages_fulfilling (cmp : String → String → Int) (flat : List BinaryPackage)
    (d : BinaryPackageDependency) : List BinaryPackage :=
  (depNames d).flatMap (fun n => (get_provided flat n).filter (fun p => fulfilled cmp d p))

/-- `APTSources.packages_fulfilling`: chain the repositories' yields in order. -/
def sources_packages_fulfilling (cmp : String → String → Int)
    (repos : List (List BinaryPackage)) (d : BinaryPackageDependency) :
    List BinaryPackage :=
  repos.flatMap (fun flat => packages_fulfilling cmp flat d)

/-- The observable state threaded through `BinaryPackage.dependencies`:
the mutable `summed_deps` set, the warnings logged for dependencies with no
fulfilling package (`'No package found matching ...'`), and the debug log of
packages entered (`'Check dependencies of ...'`), which records the descent order. -/
structure RState where
  summed : List BinaryPackage
  warns : List BinaryPackageDependency
  trace : List String
deriving DecidableEq, Repr

/-- The control positions of `BinaryPackage.dependencies`: entering a package,
iterating the remaining dependency groups of the current package, or iterating the
remaining fulfilling candidates of the current group. -/
inductive RTask where
  | pkg (p : BinaryPackage)
  | groups (ds : List BinaryPackageDependency)
  | cands (cs : List BinaryPackage)

/-- `BinaryPackage.dependencies` as a fuel-indexed step function (`none` = fuel ran
out; the Python recursion is unbounded).  Entering package `p` adds it to
`summed_deps` and logs it, then iterates `self.depends + self.predepends`:
a group already fulfilled by some member of `summed_deps` is skipped; otherwise
every candidate from `sources.packages_fulfilling` is recursed into (the candidate
list is fixed before the loop), and if there were no candidates at all a warning is
logged and resolution continues (the `raise` in the source is commented out). -/
def run (cmp : String → String → Int) (repos : List (List BinaryPackage)) :
    Nat → RTask → RState → Option RState
  | 0, _, _ => none
  | fuel + 1, .pkg p, st =>
      run cmp repos fuel (.groups (p.depends ++ p.predepends))
        { st with summed := pySetAdd st.summed p, trace := st.trace ++ [p.package] }
  | _fuel + 1, .groups [], st => some st
  | fuel + 1, .groups (d :: ds), st =>
      if st.summed.any (fun q => fulfilled cmp d q) then
        run cmp repos fuel (.groups ds) st
      else
        match run cmp repos fuel (.cands (sources_packages_fulfilling cmp repos d)) st with
        | none => none
        | some st' =>
            run cmp repos fuel (.groups ds)
              (if (sources_packages_fulfilling cmp repos d).isEmpty then
                { st' with warns := st'.warns ++ [d] }
              else st')
  | _fuel + 1, .cands [], st => some st
  | fuel + 1, .cands (c :: cs), st =>
      match run cmp repos fuel (.pkg c) st with
      | none => none
      | some st' => run cmp repos fuel (.cands cs) st'

/-- `pack.dependencies(sources)` called at top level: a fresh `summed_deps` set
(and empty logs). -/
def dependencies (cmp : String → String → Int) (repos : List (List BinaryPackage))
    (fuel : Nat) (p : BinaryPackage) : Option RState :=
  run cmp repos fuel (.pkg p) ⟨[], [], []⟩

/-- Fuel monotonicity: a result reached with some fuel is unchanged by extra fuel. -/
theorem run_succ_mono (cmp : String → String → Int) (repos : List (List BinaryPackage)) :
    ∀ fuel t st r, run cmp repos fuel t st = some r →
      run cmp repos (fuel + 1) t st = some r := by
  intro fuel
  induction fuel with
  | zero => intro t st r h; exact absurd h (by simp [run])
  | succ n ih =>
    intro t st r h
    match t with
    | .pkg p =>
        rw [run] at h ⊢
        exact ih _ _ _ h
    | .groups [] =>
        rw [run] at h ⊢
        exact h
    | .groups (d :: ds) =>
        rw [run] at h ⊢
        by_cases hf : st.summed.any (fun q => fulfilled cmp d q)
        · rw [if_pos hf] at h ⊢
          exact ih _ _ _ h
        · rw [if_neg hf] at h ⊢
          cases hc : run cmp repos n (.cands (sources_packages_fulfilling cmp repos d)) st with
          | none => rw [hc] at h; exact absurd h (by simp)
          | some st' =>
              rw [hc] at h
              rw [ih _ _ _ hc]
              exact ih _ _ _ h
    | .cands [] =>
        rw [run] at h ⊢
        exact h
    | .cands (c :: cs) =>
        rw [run] at h ⊢
        cases hc : run cmp repos n (.pkg c) st with
        | none => rw [hc] at h; exact absurd h (by simp)
        | some st' =>
            rw [hc] at h
            rw [ih _ _ _ hc]
            exact ih _ _ _ h

/-- Fuel monotonicity, arbitrary increments. -/
theorem run_mono (cmp : String → String → Int) (repos : List (List BinaryPackage))
    {fuel fuel' : Nat} (hle : fuel ≤ fuel') {t : RTask} {st r : RState}
    (h : run cmp repos fuel t st = some r) :
    run cmp repos fuel' t st = some r := by
  induction hle with
  | refl => exact h
  | step _ ih => exact run_succ_mono cmp repos _ _ _ _ ih

/-- A plain unversioned dependency alternative on `n`. -/
def depOn (n : String) : BinaryPackageDependency := .alt ⟨n, none, none⟩

/-- Synthetic package `A`: depends on `B`. -/
def pkgA : BinaryPackage :=
  ⟨0, "A", "1", "amd64", [], [depOn "B"], [], none, "pool/A.deb", 1, "hA", "http://r"⟩

/-- Synthetic package `B`: depends on `A`. -/
def pkgB : BinaryPackage :=
  ⟨1, "B", "1", "amd64", [], [depOn "A"], [], none, "pool/B.deb", 1, "hB", "http://r"⟩

/-- A single repository holding the mutually dependent `A` and `B`. -/
def reposAB : List (List BinaryPackage) := [[pkgA, pkgB]]

/-- C2: for the synthetic cycle `A` depends on `B`, `B` depends on `A`,
`dependencies(A, sources)` terminates (it returns a result at every fuel from 10 on,
i.e. the recursion depth is bounded despite the cycle) and returns exactly the closure
`{A, B}`; the debug trace shows each package is entered exactly once — `B`'s
dependency group on `A` is skipped because `A` is already in the visited set, which
is the cycle guard. -/
theorem c2_cycle_closure (cmp : String → String → Int) (fuel : Nat) (h : 10 ≤ fuel) :
    dependencies cmp reposAB fuel pkgA = some ⟨[pkgA, pkgB], [], ["A", "B"]⟩ := by
  have base : dependencies cmp reposAB 10 pkgA = some ⟨[pkgA, pkgB], [], ["A", "B"]⟩ := by
    rfl
  exact run_mono cmp reposAB h base

/-- C2 closed corollary at fuel 10 with a concrete comparator. -/
theorem c2_cycle_closure_witness :
    dependencies cmpDemo reposAB 10 pkgA = some ⟨[pkgA, pkgB], [], ["A", "B"]⟩ :=
  c2_cycle_closure cmpDemo 10 (by decide)

/-- Synthetic package `C`: its first dependency group targets the nowhere-provided
name `X`, its second targets `D`. -/
def pkgC : BinaryPackage :=
  ⟨10, "C", "1", "amd64", [], [depOn "X", depOn "D"], [], none, "pool/C.deb", 1, "hC",
    "http://r"⟩

/-- Synthetic package `D`, dependency-free. -/
def pkgD : BinaryPackage :=
  ⟨11, "D", "1", "amd64", [], [], [], none, "pool/D.deb", 1, "hD", "http://r"⟩

/-- A single repository holding `C` and `D` but nothing fulfilling `X`. -/
def reposCD : List (List BinaryPackage) := [[pkgC, pkgD]]

/-- C4: a dependency group with zero fulfilling candidates across all repositories
only makes the resolver log a warning and move on.  First conjunct (general): when
the current group is not fulfilled by the visited set and has no fulfilling candidate
anywhere, one resolution step appends the group to the warning log and continues with
the remaining groups — no exception, no abort.  Second conjunct (scenario): resolving
`C` (whose first group `X` is unsatisfiable and whose second group is fulfilled by
`D`) terminates with the closure `{C, D}`, one warning for `X`, and both packages
descended — the closure still contains everything reachable through satisfiable
groups. -/
theorem c4_soft_fail (cmp : String → String → Int) :
    (∀ (repos : List (List BinaryPackage)) (fuel : Nat)
        (d : BinaryPackageDependency) (ds : List BinaryPackageDependency) (st : RState),
      st.summed.any (fun q => fulfilled cmp d q) = false →
      sources_packages_fulfilling cmp repos d = [] →
      run cmp repos (fuel + 2) (.groups (d :: ds)) st
        = run cmp repos (fuel + 1) (.groups ds) { st with warns := st.warns ++ [d] }) ∧
    (∀ fuel : Nat, 10 ≤ fuel →
      dependencies cmp reposCD fuel pkgC
        = some ⟨[pkgC, pkgD], [depOn "X"], ["C", "D"]⟩) := by
  constructor
  · intro repos fuel d ds st hnf hempty
    rw [run]
    rw [if_neg (by rw [hnf]; exact Bool.false_ne_true)]
    rw [hempty]
    have hcands : run cmp repos (fuel + 1) (.cands []) st = some st := by rw [run]
    rw [hcands]
    simp [List.isEmpty]
  · intro fuel h
    have base : dependencies cmp reposCD 10 pkgC
        = some ⟨[pkgC, pkgD], [depOn "X"], ["C", "D"]⟩ := by rfl
    exact run_mono cmp reposCD h base

/-- C4 closed corollary: the warn-and-continue step equation instantiated on a
concrete state, and the scenario at fuel 10, both with a concrete comparator. -/
theorem c4_soft_fail_witness :
    run cmpDemo [] 2 (.groups [depOn "X"]) ⟨[pkgD], [], ["D"]⟩
        = run cmpDemo [] 1 (.groups []) ⟨[pkgD], [depOn "X"], ["D"]⟩ ∧
      dependencies cmpDemo reposCD 10 pkgC
        = some ⟨[pkgC, pkgD], [depOn "X"], ["C", "D"]⟩ :=
  ⟨(c4_soft_fail cmpDemo).1 [] 0 (depOn "X") [] ⟨[pkgD], [], ["D"]⟩ (by decide) rfl,
    (c4_soft_fail cmpDemo).2 10 (by decide)⟩

/-- Synthetic package `E`, depending on `F`. -/
def pkgE : BinaryPackage :=
  ⟨20, "E", "1", "amd64", [], [depOn "F"], [], none, "pool/E.deb", 1, "hE", "http://r1"⟩

/-- One record of package `F` (as parsed from the first repository). -/
def pkgF1 : BinaryPackage :=
  ⟨21, "F", "1", "amd64", [], [], [], none, "pool/F.deb", 1, "hF", "http://r1"⟩

/-- A second, distinct record of package `F` with the same name, version and
architecture (as parsed from a second repository's index: a distinct Python object). -/
def pkgF2 : BinaryPackage :=
  ⟨22, "F", "1", "amd64", [], [], [], none, "pool/F.deb", 1, "hF", "http://r2"⟩

/-- Two repositories both carrying `F`. -/
def reposEF : List (List BinaryPackage) := [[pkgE, pkgF1], [pkgF2]]

/-- C9 counterexample: resolving `E` over two repositories that both carry `F`
leaves **both** `F` records in the visited set (and both are descended, as the
trace shows), although they agree on (name, version, architecture).  So the triple
does not decide set membership: the visited set holds two records of equal
(name, version, architecture). -/
theorem c9_counterexample :
    dependencies cmpDemo reposEF 10 pkgE
        = some ⟨[pkgE, pkgF1, pkgF2], [], ["E", "F", "F"]⟩ ∧
      pkgF1.package = pkgF2.package ∧ pkgF1.version = pkgF2.version ∧
      pkgF1.architecture = pkgF2.architecture ∧ pkgF1 ≠ pkgF2 := by
  refine ⟨by rfl, rfl, rfl, rfl, ?_⟩
  decide

/-- C9 amended: package identity in the code is Python object identity (the class
defines no `__eq__`/`__hash__`), modelled by `oid`.  Set membership in the
resolver's visited set is decided by that identity: adding a record whose identity
is already present leaves the set unchanged, adding a fresh identity appends it, and
the visited set therefore never holds the *same record* twice (its identities stay
pairwise distinct throughout resolution) — but records merely agreeing on
(name, version, architecture) are distinct elements. -/
theorem c9_amended_identity (cmp : String → String → Int) :
    (∀ (s : List BinaryPackage) (p : BinaryPackage),
      ((∃ q ∈ s, q.oid = p.oid) → pySetAdd s p = s) ∧
      ((¬∃ q ∈ s, q.oid = p.oid) → pySetAdd s p = s ++ [p])) ∧
    (∀ (repos : List (List BinaryPackage)) (fuel : Nat) (t : RTask) (st r : RState),
      (st.summed.map BinaryPackage.oid).Nodup → run cmp repos fuel t st = some r →
      (r.summed.map BinaryPackage.oid).Nodup) := by
  constructor
  · intro s p
    constructor
    · intro ⟨q, hq, hoid⟩
      have : s.any (fun q => q.oid == p.oid) = true := by
        exact List.any_eq_true.mpr ⟨q, hq, by simp [hoid]⟩
      simp [pySetAdd, this]
    · intro hno
      have : s.any (fun q => q.oid == p.oid) = false := by
        rw [List.any_eq_false]
        intro q hq
        simp only [beq_iff_eq]
        exact fun h => hno ⟨q, hq, h⟩
      simp [pySetAdd, this]
  · intro repos fuel
    induction fuel with
    | zero => intro t st r _ h; exact absurd h (by simp [run])
    | succ n ih =>
      intro t st r hnd h
      match t with
      | .pkg p =>
          rw [run] at h
          refine ih _ _ _ ?_ h
          by_cases hmem : st.summed.any (fun q => q.oid == p.oid)
          · simpa [pySetAdd, hmem] using hnd
          · rw [Bool.not_eq_true] at hmem
            simp only [pySetAdd, hmem, Bool.false_eq_true, if_false, List.map_append,
              List.map_cons, List.map_nil]
            rw [List.nodup_append]
            refine ⟨hnd, List.nodup_singleton _, ?_⟩
            intro x hx
            simp only [List.mem_singleton]
            intro hxp
            rcases List.mem_map.mp hx with ⟨q, hq, hqx⟩
            have := List.any_eq_false.mp hmem q hq
            simp only [beq_iff_eq] at this
            exact this (hqx.trans hxp)
      | .groups [] =>
          rw [run] at h
          cases h
          exact hnd
      | .groups (d :: ds) =>
          rw [run] at h
          by_cases hf : st.summed.any (fun q => fulfilled cmp d q)
          · rw [if_pos hf] at h
            exact ih _ _ _ hnd h
          · rw [if_neg hf] at h
            cases hc : run cmp repos n (.cands (sources_packages_fulfilling cmp repos d)) st with
            | none => rw [hc] at h; exact absurd h (by simp)
            | some st' =>
                rw [hc] at h
                have hnd' := ih _ _ _ hnd hc
                have hsummed : ((if (sources_packages_fulfilling cmp repos d).isEmpty then
                    { st' with warns := st'.warns ++ [d] } else st') : RState).summed
                      = st'.summed := by
                  by_cases he : (sources_packages_fulfilling cmp repos d).isEmpty
                  · rw [if_pos he]
                  · rw [if_neg he]
                refine ih _ _ _ ?_ h
                rw [hsummed]
                exact hnd'
      | .cands [] =>
          rw [run] at h
          cases h
          exact hnd
      | .cands (c :: cs) =>
          rw [run] at h
          cases hc : run cmp repos n (.pkg c) st with
          | none => rw [hc] at h; exact absurd h (by simp)
          | some st' =>
              rw [hc] at h
              exact ih _ _ _ (ih _ _ _ hnd hc) h

/-- C9 amended, closed corollary: re-adding the identical record leaves the visited
set unchanged, adding a fresh identity appends, and the scenario run preserves
distinctness of identities. -/
theorem c9_amended_identity_witness :
    pySetAdd [pkgF1] pkgF1 = [pkgF1] ∧
      pySetAdd [pkgF1] pkgF2 = [pkgF1, pkgF2] ∧
      (([pkgE, pkgF1, pkgF2] : List BinaryPackage).map BinaryPackage.oid).Nodup := by
  refine ⟨((c9_amended_identity cmpDemo).1 [pkgF1] pkgF1).1 ⟨pkgF1, by simp⟩,
    ((c9_amended_identity cmpDemo).1 [pkgF1] pkgF2).2 (by decide), ?_⟩
  have hrun : run cmpDemo reposEF 10 (.pkg pkgE) ⟨[], [], []⟩
      = some ⟨[pkgE, pkgF1, pkgF2], [], ["E", "F", "F"]⟩ := by rfl
  exact (c9_amended_identity cmpDemo).2 reposEF 10 _ _ _ (by simp) hrun

/-- Rewrite the `Recommends` field of a record (keyed by its identity) and nothing
else: two catalogs that differ only in some packages' `Recommends` fields are
related by such a rewrite. -/
def tweakRec (R : Nat → Option String) (p : BinaryPackage) : BinaryPackage :=
  { p with recommends := R p.oid }

/-- Apply a `Recommends` rewrite to every record of every repository. -/
def tweakRepos (R : Nat → Option String) (repos : List (List BinaryPackage)) :
    List (List BinaryPackage) :=
  repos.map (fun flat => flat.map (tweakRec R))

/-- Apply a `Recommends` rewrite to the records of a resolution state. -/
def tweakState (R : Nat → Option String) (st : RState) : RState :=
  { st with summed := st.summed.map (tweakRec R) }

/-- Apply a `Recommends` rewrite to the records of a control position. -/
def tweakTask (R : Nat → Option String) : RTask → RTask
  | .pkg p => .pkg (tweakRec R p)
  | .groups ds => .groups ds
  | .cands cs => .cands (cs.map (tweakRec R))

/-- Apply a `Recommends` rewrite to the records of a cache map. -/
def tweakMapM (R : Nat → Option String) (m : List (String × List BinaryPackage)) :
    List (String × List BinaryPackage) :=
  m.map (fun e => (e.1, e.2.map (tweakRec R)))

theorem fulfilled_tweakRec (cmp : String → String → Int) (R : Nat → Option String)
    (d : BinaryPackageDependency) (p : BinaryPackage) :
    fulfilled cmp d (tweakRec R p) = fulfilled cmp d p := by
  cases d with
  | alt a => rfl
  | orDep as => rfl

theorem pySetAdd_tweakRec (R : Nat → Option String) (s : List BinaryPackage)
    (p : BinaryPackage) :
    pySetAdd (s.map (tweakRec R)) (tweakRec R p) = (pySetAdd s p).map (tweakRec R) := by
  unfold pySetAdd
  have hany : (s.map (tweakRec R)).any (fun q => q.oid == (tweakRec R p).oid)
      = s.any (fun q => q.oid == p.oid) := by
    rw [List.any_map]
    rfl
  rw [hany]
  by_cases h : s.any (fun q => q.oid == p.oid)
  · rw [if_pos h, if_pos h]
  · rw [if_neg h, if_neg h, List.map_append]
    rfl

theorem mapAdd_tweakRec (R : Nat → Option String)
    (m : List (String × List BinaryPackage)) (k : String) (p : BinaryPackage) :
    mapAdd (tweakMapM R m) k (tweakRec R p) = tweakMapM R (mapAdd m k p) := by
  unfold mapAdd tweakMapM
  have hany : (m.map (fun e => (e.1, e.2.map (tweakRec R)))).any (fun e => e.1 == k)
      = m.any (fun e => e.1 == k) := by
    rw [List.any_map]
    rfl
  rw [hany]
  by_cases h : m.any (fun e => e.1 == k)
  · rw [if_pos h, if_pos h, List.map_map, List.map_map]
    refine List.map_congr_left ?_
    intro e _
    by_cases hk : e.1 == k
    · simp only [Function.comp_apply, hk, if_true, if_pos rfl]
      rw [pySetAdd_tweakRec]
    · simp only [Function.comp_apply, hk, Bool.false_eq_true, if_false]
  · rw [if_neg h, if_neg h, List.map_append]
    rfl

theorem mapAppend_tweakRec (R : Nat → Option String)
    (m : List (String × List BinaryPackage)) (k : String) (p : BinaryPackage) :
    mapAppend (tweakMapM R m) k (tweakRec R p) = tweakMapM R (mapAppend m k p) := by
  unfold mapAppend tweakMapM
  have hany : (m.map (fun e => (e.1, e.2.map (tweakRec R)))).any (fun e => e.1 == k)
      = m.any (fun e => e.1 == k) := by
    rw [List.any_map]
    rfl
  rw [hany]
  by_cases h : m.any (fun e => e.1 == k)
  · rw [if_pos h, if_pos h, List.map_map, List.map_map]
    refine List.map_congr_left ?_
    intro e _
    by_cases hk : e.1 == k
    · simp only [Function.comp_apply, hk, if_true, if_pos rfl, List.map_append]
      rfl
    · simp only [Function.comp_apply, hk, Bool.false_eq_true, if_false]
  · rw [if_neg h, if_neg h, List.map_append]
    rfl


theorem buildPackagesAux_tweakRec (R : Nat → Option String) :
    ∀ (flat : List BinaryPackage) (m : List (String × List BinaryPackage)),
      buildPackagesAux (flat.map (tweakRec R)) (tweakMapM R m)
        = tweakMapM R (buildPackagesAux flat m) := by
  intro flat
  induction flat with
  | nil => intro m; rfl
  | cons p ps ih =>
    intro m
    rw [List.map_cons, buildPackagesAux, buildPackagesAux]
    have hp : (tweakRec R p).package = p.package := rfl
    rw [hp, mapAppend_tweakRec R m p.package p]
    exact ih (mapAppend m p.package p)

theorem buildPackages_tweakRec (R : Nat → Option String) (flat : List BinaryPackage) :
    buildPackages (flat.map (tweakRec R)) = tweakMapM R (buildPackages flat) := by
  unfold buildPackages
  have h := buildPackagesAux_tweakRec R flat []
  simpa [tweakMapM] using h

theorem provNamesAdd_tweakRec (R : Nat → Option String) (p : BinaryPackage) :
    ∀ (ns : List String) (acc : List (String × List BinaryPackage)),
      provNamesAdd (tweakRec R p) ns (tweakMapM R acc)
        = tweakMapM R (provNamesAdd p ns acc) := by
  intro ns
  induction ns with
  | nil => intro acc; rfl
  | cons n ns ih =>
    intro acc
    rw [provNamesAdd, provNamesAdd, mapAdd_tweakRec R acc n p]
    exact ih (mapAdd acc n p)

theorem provPacksAdd_tweakRec (R : Nat → Option String) (k : String) :
    ∀ (ps : List BinaryPackage) (acc : List (String × List BinaryPackage)),
      provPacksAdd k (ps.map (tweakRec R)) (tweakMapM R acc)
        = tweakMapM R (provPacksAdd k ps acc) := by
  intro ps
  induction ps with
  | nil => intro acc; rfl
  | cons p ps ih =>
    intro acc
    rw [List.map_cons, provPacksAdd, provPacksAdd]
    have hprov : (tweakRec R p).provides = p.provides := rfl
    rw [hprov, provNamesAdd_tweakRec R p (k :: p.provides) acc]
    exact ih (provNamesAdd p (k :: p.provides) acc)

theorem buildProvidedFromMapAux_tweakRec (R : Nat → Option String) :
    ∀ (m acc : List (String × List BinaryPackage)),
      buildProvidedFromMapAux (tweakMapM R m) (tweakMapM R acc)
        = tweakMapM R (buildProvidedFromMapAux m acc) := by
  intro m
  induction m with
  | nil => intro acc; rfl
  | cons e es ih =>
    intro acc
    rw [show tweakMapM R (e :: es)
        = (e.1, e.2.map (tweakRec R)) :: tweakMapM R es from rfl]
    rw [buildProvidedFromMapAux, buildProvidedFromMapAux]
    rw [show ((e.1, e.2.map (tweakRec R)) : String × List BinaryPackage).1 = e.1 from rfl,
      show ((e.1, e.2.map (tweakRec R)) : String × List BinaryPackage).2
        = e.2.map (tweakRec R) from rfl]
    rw [provPacksAdd_tweakRec R e.1 e.2 acc]
    exact ih (provPacksAdd e.1 e.2 acc)

theorem buildProvidedFromMap_tweakRec (R : Nat → Option String)
    (m : List (String × List BinaryPackage)) :
    buildProvidedFromMap (tweakMapM R m) = tweakMapM R (buildProvidedFromMap m) := by
  unfold buildProvidedFromMap
  have h := buildProvidedFromMapAux_tweakRec R m []
  simpa [tweakMapM] using h

theorem find?_tweakMapM (R : Nat → Option String)
    (m : List (String × List BinaryPackage)) (k : String) :
    (tweakMapM R m).find? (fun e => e.1 == k)
      = (m.find? (fun e => e.1 == k)).map (fun e => (e.1, e.2.map (tweakRec R))) := by
  induction m with
  | nil => rfl
  | cons e es ih =>
    rw [show tweakMapM R (e :: es)
        = (e.1, e.2.map (tweakRec R)) :: tweakMapM R es from rfl]
    rw [List.find?_cons, List.find?_cons]
    dsimp only
    cases hk : (e.1 == k) with
    | true => rfl
    | false => exact ih

theorem lookupMap_tweakRec (R : Nat → Option String)
    (m : List (String × List BinaryPackage)) (k : String) :
    lookupMap (tweakMapM R m) k = (lookupMap m k).map (tweakRec R) := by
  unfold lookupMap
  rw [find?_tweakMapM]
  cases m.find? (fun e => e.1 == k) with
  | none => rfl
  | some e => rfl

theorem get_provided_tweakRec (R : Nat → Option String) (flat : List BinaryPackage)
    (n : String) :
    get_provided (flat.map (tweakRec R)) n = (get_provided flat n).map (tweakRec R) := by
  unfold get_provided buildProvided
  rw [buildPackages_tweakRec, buildProvidedFromMap_tweakRec, lookupMap_tweakRec]

theorem packages_fulfilling_tweakRec (cmp : String → String → Int)
    (R : Nat → Option String) (flat : List BinaryPackage)
    (d : BinaryPackageDependency) :
    packages_fulfilling cmp (flat.map (tweakRec R)) d
      = (packages_fulfilling cmp flat d).map (tweakRec R) := by
  unfold packages_fulfilling
  rw [List.map_flatMap]
  refine List.flatMap_congr ?_
  intro n _
  rw [get_provided_tweakRec, List.filter_map]
  rw [show ((fun p => fulfilled cmp d p) ∘ tweakRec R)
      = (fun p => fulfilled cmp d p) from funext fun p => fulfilled_tweakRec cmp R d p]

theorem sources_packages_fulfilling_tweakRec (cmp : String → String → Int)
    (R : Nat → Option String) (repos : List (List BinaryPackage))
    (d : BinaryPackageDependency) :
    sources_packages_fulfilling cmp (tweakRepos R repos) d
      = (sources_packages_fulfilling cmp repos d).map (tweakRec R) := by
  unfold sources_packages_fulfilling tweakRepos
  rw [List.flatMap_map, List.map_flatMap]
  refine List.flatMap_congr ?_
  intro flat _
  exact packages_fulfilling_tweakRec cmp R flat d

theorem isEmpty_map_tweakRec (R : Nat → Option String) (l : List BinaryPackage) :
    (l.map (tweakRec R)).isEmpty = l.isEmpty := by
  cases l with
  | nil => rfl
  | cons a l => rfl

theorem run_tweakRec (cmp : String → String → Int) (R : Nat → Option String)
    (repos : List (List BinaryPackage)) :
    ∀ (fuel : Nat) (t : RTask) (st : RState),
      run cmp (tweakRepos R repos) fuel (tweakTask R t) (tweakState R st)
        = Option.map (tweakState R) (run cmp repos fuel t st) := by
  intro fuel
  induction fuel with
  | zero => intro t st; rfl
  | succ n ih =>
    intro t st
    match t with
    | .pkg p =>
        show run cmp (tweakRepos R repos) (n + 1) (.pkg (tweakRec R p))
          (tweakState R st) = _
        rw [run, run]
        have hstate :
            ({ tweakState R st with
                summed := pySetAdd (tweakState R st).summed (tweakRec R p),
                trace := (tweakState R st).trace ++ [(tweakRec R p).package] } : RState)
              = tweakState R
                  { st with summed := pySetAdd st.summed p,
                            trace := st.trace ++ [p.package] } := by
          show (⟨pySetAdd (st.summed.map (tweakRec R)) (tweakRec R p), st.warns,
              st.trace ++ [p.package]⟩ : RState)
            = ⟨(pySetAdd st.summed p).map (tweakRec R), st.warns,
              st.trace ++ [p.package]⟩
          rw [pySetAdd_tweakRec]
        rw [show (tweakRec R p).depends ++ (tweakRec R p).predepends
            = p.depends ++ p.predepends from rfl]
        rw [hstate]
        exact ih (.groups (p.depends ++ p.predepends)) _
    | .groups [] =>
        show run cmp (tweakRepos R repos) (n + 1) (.groups []) (tweakState R st) = _
        rw [run, run]
        rfl
    | .groups (d :: ds) =>
        show run cmp (tweakRepos R repos) (n + 1) (.groups (d :: ds))
          (tweakState R st) = _
        rw [run, run]
        have hany : (tweakState R st).summed.any (fun q => fulfilled cmp d q)
            = st.summed.any (fun q => fulfilled cmp d q) := by
          show (st.summed.map (tweakRec R)).any (fun q => fulfilled cmp d q)
            = st.summed.any (fun q => fulfilled cmp d q)
          rw [List.any_map]
          rw [show ((fun q => fulfilled cmp d q) ∘ tweakRec R)
              = (fun q => fulfilled cmp d q) from
            funext fun q => fulfilled_tweakRec cmp R d q]
        rw [hany]
        by_cases hf : st.summed.any (fun q => fulfilled cmp d q)
        · rw [if_pos hf, if_pos hf]
          exact ih (.groups ds) st
        · rw [if_neg hf, if_neg hf]
          rw [sources_packages_fulfilling_tweakRec]
          have hcands := ih (.cands (sources_packages_fulfilling cmp repos d)) st
          rw [show tweakTask R (.cands (sources_packages_fulfilling cmp repos d))
              = .cands ((sources_packages_fulfilling cmp repos d).map (tweakRec R))
            from rfl] at hcands
          rw [hcands]
          cases hc : run cmp repos n
              (.cands (sources_packages_fulfilling cmp repos d)) st with
          | none => rfl
          | some st' =>
              rw [show Option.map (tweakState R) (some st')
                  = some (tweakState R st') from rfl]
              dsimp only
              rw [isEmpty_map_tweakRec]
              by_cases he : (sources_packages_fulfilling cmp repos d).isEmpty
              · rw [if_pos he, if_pos he]
                rw [show ({ tweakState R st' with
                    warns := (tweakState R st').warns ++ [d] } : RState)
                      = tweakState R { st' with warns := st'.warns ++ [d] } from rfl]
                exact ih (.groups ds) _
              · rw [if_neg he, if_neg he]
                exact ih (.groups ds) st'
    | .cands [] =>
        show run cmp (tweakRepos R repos) (n + 1) (.cands ([] : List BinaryPackage))
          (tweakState R st) = _
        rw [run, run]
        rfl
    | .cands (c :: cs) =>
        show run cmp (tweakRepos R repos) (n + 1)
          (.cands (tweakRec R c :: cs.map (tweakRec R))) (tweakState R st) = _
        rw [run, run]
        have hpkg := ih (.pkg c) st
        rw [show tweakTask R (.pkg c) = .pkg (tweakRec R c) from rfl] at hpkg
        rw [hpkg]
        cases hc : run cmp repos n (.pkg c) st with
        | none => rfl
        | some st' =>
            dsimp only
            exact ih (.cands cs) st'

/-- C10: the dependency closure is determined solely by the `Depends` and
`Pre-Depends` fields: rewriting any packages' `Recommends` fields (keeping every
other field, identity included) maps the resolver's result through exactly that
rewrite, so for two catalogs differing only in some `Recommends` fields the closure
— the (name, version, architecture, identity) view of the visited set, together
with the warnings and descent order — is identical.  `Recommends` is parsed (the
field is carried on every record) but never expanded into the closure. -/
theorem c10_recommends_noninterference (cmp : String → String → Int)
    (R : Nat → Option String) (repos : List (List BinaryPackage)) (fuel : Nat)
    (p : BinaryPackage) :
    dependencies cmp (tweakRepos R repos) fuel (tweakRec R p)
        = Option.map (tweakState R) (dependencies cmp repos fuel p) ∧
      Option.map (fun st => st.summed.map
          (fun q => (q.package, q.version, q.architecture, q.oid)))
        (dependencies cmp (tweakRepos R repos) fuel (tweakRec R p))
        = Option.map (fun st => st.summed.map
          (fun q => (q.package, q.version, q.architecture, q.oid)))
        (dependencies cmp repos fuel p) := by
  have h := run_tweakRec cmp R repos fuel (.pkg p) ⟨[], [], []⟩
  rw [show tweakTask R (.pkg p) = .pkg (tweakRec R p) from rfl,
    show tweakState R ⟨[], [], []⟩ = (⟨[], [], []⟩ : RState) from rfl] at h
  refine ⟨h, ?_⟩
  show Option.map _ (dependencies cmp (tweakRepos R repos) fuel (tweakRec R p)) = _
  rw [show dependencies cmp (tweakRepos R repos) fuel (tweakRec R p)
      = Option.map (tweakState R) (dependencies cmp repos fuel p) from h]
  cases dependencies cmp repos fuel p with
  | none => rfl
  | some st =>
      show some ((st.summed.map (tweakRec R)).map
          (fun q => (q.package, q.version, q.architecture, q.oid)))
        = some (st.summed.map (fun q => (q.package, q.version, q.architecture, q.oid)))
      rw [List.map_map]
      rfl

/-- The constructor arguments of `APTRepository`: base URL, distribution, and the
configured component and architecture lists. -/
structure APTRepositoryConfig where
  url : String
  dist : String
  components : List String
  architectures : List String
deriving DecidableEq, Repr

/-- The flat sequence of packages fetched by the first access to
`APTRepository.packages`: `for arch in self.architectures: for component in
self.components:` fetch the `(component, arch)` index and take its packages.
`fetch` abstracts `get_binary_packages_by_component`. -/
def allFetched (cfg : APTRepositoryConfig)
    (fetch : String → String → List BinaryPackage) : List BinaryPackage :=
  cfg.architectures.flatMap (fun arch =>
    cfg.components.flatMap (fun comp => fetch comp arch))

/-- The hidden caching state of an `APTRepository`: `_cache_packages` and
`_cache_provided_packages`, both absent until the first access. -/
structure APTRepositoryState where
  cache_packages : Option (List (String × List BinaryPackage))
  cache_provided : Option (List (String × List BinaryPackage))
deriving DecidableEq, Repr

/-- The `APTRepository.packages` property as a state transformer: it returns the
`_cache_packages` map, the updated object state, and the number of package-index
fetches performed by the call.  A cache hit returns the cached map with zero
fetches; a miss fetches every `(component, architecture)` pair, builds both maps
and stores them. -/
def packagesProperty (cfg : APTRepositoryConfig)
    (fetch : String → String → List BinaryPackage) (st : APTRepositoryState) :
    List (String × List BinaryPackage) × APTRepositoryState × Nat :=
  match st.cache_packages with
  | some m => (m, st, 0)
  | none =>
      (buildPackages (allFetched cfg fetch),
        ⟨some (buildPackages (allFetched cfg fetch)),
          some (buildProvidedFromMap (buildPackages (allFetched cfg fetch)))⟩,
        cfg.architectures.length * cfg.components.length)

theorem find?_key_map (f : (String × List BinaryPackage) → (String × List BinaryPackage))
    (hf : ∀ e, (f e).1 = e.1) (m : List (String × List BinaryPackage)) (n : String) :
    (m.map f).find? (fun e => e.1 == n) = Option.map f (m.find? (fun e => e.1 == n)) := by
  rw [List.find?_map f m]
  rw [show ((fun e : String × List BinaryPackage => e.1 == n) ∘ f)
      = (fun e : String × List BinaryPackage => e.1 == n) from
    funext fun e => by
      show ((f e).1 == n) = (e.1 == n)
      rw [hf e]]

theorem lookupMap_nil (n : String) : lookupMap [] n = [] := rfl

theorem exists_entry_of_mem_lookupMap (m : List (String × List BinaryPackage))
    (n : String) (q : BinaryPackage) (h : q ∈ lookupMap m n) :
    ∃ e ∈ m, q ∈ e.2 ∧ e.1 = n := by
  unfold lookupMap at h
  cases hfind : m.find? (fun e => e.1 == n) with
  | none => rw [hfind] at h; exact absurd h (by simp)
  | some e =>
      rw [hfind] at h
      refine ⟨e, List.mem_of_find?_eq_some hfind, h, ?_⟩
      have hbeq := List.find?_some hfind
      exact eq_of_beq hbeq

/-- Shared shape of one `dict` bucket update in the two cache-building loops:
update the bucket of key `k` by `g`, or create the bucket `g []` when the key is
absent. -/
theorem lookupMap_keyed_update (g : List BinaryPackage → List BinaryPackage)
    (m : List (String × List BinaryPackage)) (k n : String) :
    lookupMap
      (if m.any (fun e => e.1 == k) then
        m.map (fun e => if e.1 == k then (e.1, g e.2) else e)
      else m ++ [(k, g [])]) n
      = if n = k then g (lookupMap m k) else lookupMap m n := by
  have hf : ∀ e : String × List BinaryPackage,
      ((if e.1 == k then (e.1, g e.2) else e) : String × List BinaryPackage).1 = e.1 := by
    intro e
    by_cases h : (e.1 == k) = true
    · rw [if_pos h]
    · rw [if_neg h]
  by_cases hany : m.any (fun e => e.1 == k) = true
  · rw [if_pos hany]
    unfold lookupMap
    rw [find?_key_map _ hf]
    cases hfind : m.find? (fun e => e.1 == n) with
    | none =>
        by_cases hn : n = k
        · rcases List.any_eq_true.mp hany with ⟨e, he, hek⟩
          have hne := List.find?_eq_none.mp hfind e he
          rw [hn] at hne
          exact absurd hek hne
        · rw [if_neg hn]
          rfl
    | some e0 =>
        have he0n := List.find?_some hfind
        by_cases hn : n = k
        · rw [if_pos hn]
          have hek : (e0.1 == k) = true := by rw [← hn]; exact he0n
          rw [show m.find? (fun e => e.1 == k) = some e0 from hn ▸ hfind]
          show ((if e0.1 == k then (e0.1, g e0.2) else e0) :
            String × List BinaryPackage).2 = g e0.2
          rw [if_pos hek]
        · rw [if_neg hn]
          have hek : (e0.1 == k) = false := by
            have h1 : e0.1 = n := eq_of_beq he0n
            rw [h1]
            exact beq_eq_false_iff_ne.mpr hn
          have hnot : ¬ ((e0.1 == k) = true) := by
            rw [hek]
            exact Bool.false_ne_true
          show ((if e0.1 == k then (e0.1, g e0.2) else e0) :
            String × List BinaryPackage).2 = e0.2
          rw [if_neg hnot]
  · rw [if_neg hany]
    unfold lookupMap
    rw [List.find?_append]
    have hany' : m.any (fun e => e.1 == k) = false := Bool.eq_false_iff.mpr hany
    by_cases hn : n = k
    · have hnone : m.find? (fun e => e.1 == n) = none := by
        rw [List.find?_eq_none]
        intro e he
        rw [hn]
        exact List.any_eq_false.mp hany' e he
      have hsing : (([(k, g [])] : List (String × List BinaryPackage)).find?
          (fun e => e.1 == n)) = some (k, g []) :=
        List.find?_cons_of_pos _ (by show (k == n) = true; exact beq_iff_eq.mpr hn.symm)
      rw [hnone, hsing, if_pos hn]
      show g [] = g (lookupMap m k)
      rw [show lookupMap m k = [] from by
        unfold lookupMap
        rw [show m.find? (fun e => e.1 == k) = none from hn ▸ hnone]]
    · have hnone2 : (([(k, g [])] : List (String × List BinaryPackage)).find?
          (fun e => e.1 == n)) = none := by
        rw [List.find?_eq_none]
        intro e he
        rw [List.mem_singleton] at he
        subst he
        show ¬ (k == n) = true
        intro hbeq
        exact hn (eq_of_beq hbeq).symm
      rw [hnone2, if_neg hn]
      cases hfind : m.find? (fun e => e.1 == n) with
      | none => rfl
      | some e0 => rfl

theorem lookupMap_mapAppend (m : List (String × List BinaryPackage)) (k : String)
    (p : BinaryPackage) (n : String) :
    lookupMap (mapAppend m k p) n
      = if n = k then lookupMap m k ++ [p] else lookupMap m n :=
  lookupMap_keyed_update (fun s => s ++ [p]) m k n

theorem lookupMap_mapAdd (m : List (String × List BinaryPackage)) (k : String)
    (p : BinaryPackage) (n : String) :
    lookupMap (mapAdd m k p) n
      = if n = k then pySetAdd (lookupMap m k) p else lookupMap m n :=
  lookupMap_keyed_update (fun s => pySetAdd s p) m k n

theorem mem_pySetAdd (s : List BinaryPackage) (p q : BinaryPackage)
    (hinj : ∀ r ∈ s, r.oid = p.oid → r = p) :
    q ∈ pySetAdd s p ↔ q ∈ s ∨ q = p := by
  unfold pySetAdd
  by_cases hany : s.any (fun r => r.oid == p.oid)
  · rw [if_pos hany]
    rcases List.any_eq_true.mp hany with ⟨r, hr, hrp⟩
    have hps : p ∈ s := by
      have : r = p := hinj r hr (by simpa using hrp)
      exact this ▸ hr
    constructor
    · exact Or.inl
    · rintro (h | rfl)
      · exact h
      · exact hps
  · rw [if_neg hany]
    rw [List.mem_append, List.mem_singleton]

theorem mem_lookupMap_buildPackagesAux :
    ∀ (flat : List BinaryPackage) (m : List (String × List BinaryPackage))
      (n : String) (q : BinaryPackage),
      q ∈ lookupMap (buildPackagesAux flat m) n ↔
        q ∈ lookupMap m n ∨ (q ∈ flat ∧ q.package = n) := by
  intro flat
  induction flat with
  | nil =>
      intro m n q
      rw [buildPackagesAux]
      simp
  | cons p ps ih =>
      intro m n q
      rw [buildPackagesAux, ih, lookupMap_mapAppend]
      by_cases hn : n = p.package
      · rw [if_pos hn]
        subst hn
        rw [List.mem_append, List.mem_singleton]
        constructor
        · rintro ((hq | rfl) | ⟨hq, hqn⟩)
          · exact Or.inl hq
          · exact Or.inr ⟨List.mem_cons_self _ _, rfl⟩
          · exact Or.inr ⟨List.mem_cons_of_mem p hq, hqn⟩
        · rintro (hq | ⟨hq, hqn⟩)
          · exact Or.inl (Or.inl hq)
          · rcases List.mem_cons.mp hq with rfl | hq
            · exact Or.inl (Or.inr rfl)
            · exact Or.inr ⟨hq, hqn⟩
      · rw [if_neg hn]
        constructor
        · rintro (hq | ⟨hq, hqn⟩)
          · exact Or.inl hq
          · exact Or.inr ⟨List.mem_cons_of_mem p hq, hqn⟩
        · rintro (hq | ⟨hq, hqn⟩)
          · exact Or.inl hq
          · rcases List.mem_cons.mp hq with rfl | hq
            · exact absurd hqn.symm hn
            · exact Or.inr ⟨hq, hqn⟩

/-- Every record in some bucket of `m` has its bucket key as its `Package` name. -/
def GoodKeys (m : List (String × List BinaryPackage)) : Prop :=
  ∀ e ∈ m, ∀ q ∈ e.2, q.package = e.1

theorem goodKeys_mapAppend (m : List (String × List BinaryPackage)) (k : String)
    (p : BinaryPackage) (hm : GoodKeys m) (hp : p.package = k) :
    GoodKeys (mapAppend m k p) := by
  unfold mapAppend
  by_cases hany : m.any (fun e => e.1 == k) = true
  · rw [if_pos hany]
    intro e' he' q hq
    rcases List.mem_map.mp he' with ⟨e, he, rfl⟩
    by_cases hk : (e.1 == k) = true
    · rw [if_pos hk] at hq ⊢
      rcases List.mem_append.mp hq with hq | hq
      · exact hm e he q hq
      · rw [List.mem_singleton] at hq
        subst hq
        exact hp.trans (eq_of_beq hk).symm
    · rw [if_neg hk] at hq ⊢
      exact hm e he q hq
  · rw [if_neg hany]
    intro e' he' q hq
    rcases List.mem_append.mp he' with he' | he'
    · exact hm e' he' q hq
    · rw [List.mem_singleton] at he'
      subst he'
      rw [List.mem_singleton] at hq
      subst hq
      exact hp

theorem goodKeys_buildPackagesAux :
    ∀ (flat : List BinaryPackage) (m : List (String × List BinaryPackage)),
      GoodKeys m → GoodKeys (buildPackagesAux flat m) := by
  intro flat
  induction flat with
  | nil => intro m hm; rw [buildPackagesAux]; exact hm
  | cons p ps ih =>
      intro m hm
      rw [buildPackagesAux]
      exact ih _ (goodKeys_mapAppend m p.package p hm rfl)

/-- The records held in some bucket of a cache map. -/
def MapRecords (m : List (String × List BinaryPackage)) (q : BinaryPackage) : Prop :=
  ∃ e ∈ m, q ∈ e.2

theorem lookupMap_subset_records (m : List (String × List BinaryPackage)) (n : String)
    (q : BinaryPackage) (h : q ∈ lookupMap m n) : MapRecords m q := by
  rcases exists_entry_of_mem_lookupMap m n q h with ⟨e, he, hq, -⟩
  exact ⟨e, he, hq⟩

theorem mapRecords_mapAppend (m : List (String × List BinaryPackage)) (k : String)
    (p q : BinaryPackage) (h : MapRecords (mapAppend m k p) q) :
    MapRecords m q ∨ q = p := by
  unfold mapAppend at h
  by_cases hany : m.any (fun e => e.1 == k) = true
  · rw [if_pos hany] at h
    rcases h with ⟨e', he', hq⟩
    rcases List.mem_map.mp he' with ⟨e, he, rfl⟩
    by_cases hk : (e.1 == k) = true
    · rw [if_pos hk] at hq
      rcases List.mem_append.mp hq with hq | hq
      · exact Or.inl ⟨e, he, hq⟩
      · rw [List.mem_singleton] at hq
        exact Or.inr hq
    · rw [if_neg hk] at hq
      exact Or.inl ⟨e, he, hq⟩
  · rw [if_neg hany] at h
    rcases h with ⟨e', he', hq⟩
    rcases List.mem_append.mp he' with he' | he'
    · exact Or.inl ⟨e', he', hq⟩
    · rw [List.mem_singleton] at he'
      subst he'
      rw [List.mem_singleton] at hq
      exact Or.inr hq

theorem mapRecords_mapAdd (m : List (String × List BinaryPackage)) (k : String)
    (p q : BinaryPackage) (h : MapRecords (mapAdd m k p) q) :
    MapRecords m q ∨ q = p := by
  unfold mapAdd at h
  by_cases hany : m.any (fun e => e.1 == k) = true
  · rw [if_pos hany] at h
    rcases h with ⟨e', he', hq⟩
    rcases List.mem_map.mp he' with ⟨e, he, rfl⟩
    by_cases hk : (e.1 == k) = true
    · rw [if_pos hk] at hq
      unfold pySetAdd at hq
      by_cases hb : e.2.any (fun r => r.oid == p.oid) = true
      · rw [if_pos hb] at hq
        exact Or.inl ⟨e, he, hq⟩
      · rw [if_neg hb] at hq
        rcases List.mem_append.mp hq with hq | hq
        · exact Or.inl ⟨e, he, hq⟩
        · rw [List.mem_singleton] at hq
          exact Or.inr hq
    · rw [if_neg hk] at hq
      exact Or.inl ⟨e, he, hq⟩
  · rw [if_neg hany] at h
    rcases h with ⟨e', he', hq⟩
    rcases List.mem_append.mp he' with he' | he'
    · exact Or.inl ⟨e', he', hq⟩
    · rw [List.mem_singleton] at he'
      subst he'
      rw [List.mem_singleton] at hq
      exact Or.inr hq

theorem mapRecords_buildPackagesAux :
    ∀ (flat : List BinaryPackage) (m : List (String × List BinaryPackage))
      (q : BinaryPackage),
      MapRecords (buildPackagesAux flat m) q → MapRecords m q ∨ q ∈ flat := by
  intro flat
  induction flat with
  | nil => intro m q h; rw [buildPackagesAux] at h; exact Or.inl h
  | cons p ps ih =>
      intro m q h
      rw [buildPackagesAux] at h
      rcases ih _ q h with h' | h'
      · rcases mapRecords_mapAppend m p.package p q h' with h'' | h''
        · exact Or.inl h''
        · exact Or.inr (h'' ▸ List.mem_cons_self p ps)
      · exact Or.inr (List.mem_cons_of_mem p h')

/-- The flattened insertion sequence of the provided-name index construction. -/
def insFold : List (String × BinaryPackage) → List (String × List BinaryPackage) →
    List (String × List BinaryPackage)
  | [], acc => acc
  | r :: rs, acc => insFold rs (mapAdd acc r.1 r.2)

theorem insFold_append (a b : List (String × BinaryPackage))
    (acc : List (String × List BinaryPackage)) :
    insFold (a ++ b) acc = insFold b (insFold a acc) := by
  induction a generalizing acc with
  | nil => rfl
  | cons r rs ih =>
      rw [List.cons_append, insFold, insFold]
      exact ih _

theorem provNamesAdd_eq_insFold (p : BinaryPackage) :
    ∀ (ns : List String) (acc : List (String × List BinaryPackage)),
      provNamesAdd p ns acc = insFold (ns.map (fun n => (n, p))) acc := by
  intro ns
  induction ns with
  | nil => intro acc; rfl
  | cons n ns ih =>
      intro acc
      rw [List.map_cons, provNamesAdd, insFold]
      exact ih _

theorem provPacksAdd_eq_insFold (k : String) :
    ∀ (ps : List BinaryPackage) (acc : List (String × List BinaryPackage)),
      provPacksAdd k ps acc
        = insFold (ps.flatMap (fun p => (k :: p.provides).map (fun n => (n, p)))) acc := by
  intro ps
  induction ps with
  | nil => intro acc; rfl
  | cons p ps ih =>
      intro acc
      rw [List.flatMap_cons, insFold_append, provPacksAdd]
      rw [← provNamesAdd_eq_insFold]
      exact ih _

/-- The insertion pairs performed by the provided-name index loops, in order. -/
def provIns (m : List (String × List BinaryPackage)) : List (String × BinaryPackage) :=
  m.flatMap (fun e => e.2.flatMap (fun p => (e.1 :: p.provides).map (fun n => (n, p))))

theorem buildProvidedFromMapAux_eq_insFold :
    ∀ (m acc : List (String × List BinaryPackage)),
      buildProvidedFromMapAux m acc = insFold (provIns m) acc := by
  intro m
  induction m with
  | nil => intro acc; rfl
  | cons e es ih =>
      intro acc
      rw [buildProvidedFromMapAux]
      rw [show provIns (e :: es)
          = e.2.flatMap (fun p => (e.1 :: p.provides).map (fun n => (n, p)))
            ++ provIns es from List.flatMap_cons ..]
      rw [insFold_append, ← provPacksAdd_eq_insFold]
      exact ih _

theorem snd_mem_provIns (m : List (String × List BinaryPackage))
    (s : String × BinaryPackage) (h : s ∈ provIns m) : MapRecords m s.2 := by
  unfold provIns at h
  rcases List.mem_flatMap.mp h with ⟨e, he, hs⟩
  rcases List.mem_flatMap.mp hs with ⟨p, hp, hs⟩
  rcases List.mem_map.mp hs with ⟨n, -, rfl⟩
  exact ⟨e, he, hp⟩

theorem mem_provIns (m : List (String × List BinaryPackage)) (n : String)
    (q : BinaryPackage) :
    ((n, q) ∈ provIns m) ↔ ∃ e ∈ m, q ∈ e.2 ∧ (n = e.1 ∨ n ∈ q.provides) := by
  unfold provIns
  constructor
  · intro h
    rcases List.mem_flatMap.mp h with ⟨e, he, hs⟩
    rcases List.mem_flatMap.mp hs with ⟨p, hp, hs⟩
    rcases List.mem_map.mp hs with ⟨n', hn', heq⟩
    have hn1 : n' = n := congrArg Prod.fst heq
    have hp1 : p = q := congrArg Prod.snd heq
    subst hn1
    subst hp1
    rcases List.mem_cons.mp hn' with rfl | hn'
    · exact ⟨e, he, hp, Or.inl rfl⟩
    · exact ⟨e, he, hp, Or.inr hn'⟩
  · rintro ⟨e, he, hq, hn | hn⟩
    · refine List.mem_flatMap.mpr ⟨e, he, ?_⟩
      refine List.mem_flatMap.mpr ⟨q, hq, ?_⟩
      exact List.mem_map.mpr ⟨n, hn ▸ List.mem_cons_self .., rfl⟩
    · refine List.mem_flatMap.mpr ⟨e, he, ?_⟩
      refine List.mem_flatMap.mpr ⟨q, hq, ?_⟩
      exact List.mem_map.mpr ⟨n, List.mem_cons_of_mem _ hn, rfl⟩

theorem mem_lookup_insFold :
    ∀ (ins : List (String × BinaryPackage))
      (acc : List (String × List BinaryPackage)) (n : String) (q : BinaryPackage),
      (∀ r1 r2 : BinaryPackage,
        (MapRecords acc r1 ∨ ∃ s ∈ ins, s.2 = r1) →
        (MapRecords acc r2 ∨ ∃ s ∈ ins, s.2 = r2) →
        r1.oid = r2.oid → r1 = r2) →
      (q ∈ lookupMap (insFold ins acc) n ↔
        q ∈ lookupMap acc n ∨ ∃ s ∈ ins, s.1 = n ∧ s.2 = q) := by
  intro ins
  induction ins with
  | nil =>
      intro acc n q _
      rw [insFold]
      simp
  | cons s rest ih =>
      intro acc n q hinj
      rw [insFold]
      have hsub : ∀ r : BinaryPackage,
          (MapRecords (mapAdd acc s.1 s.2) r ∨ ∃ t ∈ rest, t.2 = r) →
          (MapRecords acc r ∨ ∃ t ∈ s :: rest, t.2 = r) := by
        rintro r (hr | ⟨t, ht, ht2⟩)
        · rcases mapRecords_mapAdd acc s.1 s.2 r hr with hr | rfl
          · exact Or.inl hr
          · exact Or.inr ⟨s, List.mem_cons_self .., rfl⟩
        · exact Or.inr ⟨t, List.mem_cons_of_mem _ ht, ht2⟩
      rw [ih (mapAdd acc s.1 s.2) n q
        (fun r1 r2 h1 h2 => hinj r1 r2 (hsub r1 h1) (hsub r2 h2))]
      rw [lookupMap_mapAdd]
      by_cases hn : n = s.1
      · rw [if_pos hn]
        have hb : ∀ r ∈ lookupMap acc s.1, r.oid = s.2.oid → r = s.2 := by
          intro r hr hoid
          exact hinj r s.2 (Or.inl (lookupMap_subset_records acc s.1 r hr))
            (Or.inr ⟨s, List.mem_cons_self .., rfl⟩) hoid
        rw [mem_pySetAdd _ _ _ hb]
        subst hn
        constructor
        · rintro ((hq | hq) | ⟨t, ht, ht1, ht2⟩)
          · exact Or.inl hq
          · exact Or.inr ⟨s, List.mem_cons_self .., rfl, hq.symm⟩
          · exact Or.inr ⟨t, List.mem_cons_of_mem _ ht, ht1, ht2⟩
        · rintro (hq | ⟨t, ht, ht1, ht2⟩)
          · exact Or.inl (Or.inl hq)
          · rcases List.mem_cons.mp ht with rfl | ht
            · exact Or.inl (Or.inr ht2.symm)
            · exact Or.inr ⟨t, ht, ht1, ht2⟩
      · rw [if_neg hn]
        constructor
        · rintro (hq | ⟨t, ht, ht1, ht2⟩)
          · exact Or.inl hq
          · exact Or.inr ⟨t, List.mem_cons_of_mem _ ht, ht1, ht2⟩
        · rintro (hq | ⟨t, ht, ht1, ht2⟩)
          · exact Or.inl hq
          · rcases List.mem_cons.mp ht with rfl | ht
            · exact absurd ht1.symm hn
            · exact Or.inr ⟨t, ht, ht1, ht2⟩

theorem mem_lookup_buildProvided (flat : List BinaryPackage)
    (hinj : ∀ p q : BinaryPackage, p ∈ flat → q ∈ flat → p.oid = q.oid → p = q)
    (n : String) (q : BinaryPackage) :
    q ∈ lookupMap (buildProvided flat) n ↔
      q ∈ flat ∧ (q.package = n ∨ n ∈ q.provides) := by
  have hrecflat : ∀ r, MapRecords (buildPackages flat) r → r ∈ flat := by
    intro r hr
    rcases mapRecords_buildPackagesAux flat [] r hr with h | h
    · rcases h with ⟨e, he, -⟩
      exact absurd he (List.not_mem_nil e)
    · exact h
  have hgood : GoodKeys (buildPackages flat) :=
    goodKeys_buildPackagesAux flat []
      (by intro e he; exact absurd he (List.not_mem_nil e))
  unfold buildProvided buildProvidedFromMap
  rw [buildProvidedFromMapAux_eq_insFold]
  have hinj2 : ∀ r1 r2 : BinaryPackage,
      (MapRecords [] r1 ∨ ∃ s ∈ provIns (buildPackages flat), s.2 = r1) →
      (MapRecords [] r2 ∨ ∃ s ∈ provIns (buildPackages flat), s.2 = r2) →
      r1.oid = r2.oid → r1 = r2 := by
    intro r1 r2 h1 h2 hoid
    have hr1 : r1 ∈ flat := by
      rcases h1 with h1 | ⟨s, hs, rfl⟩
      · rcases h1 with ⟨e, he, -⟩
        exact absurd he (List.not_mem_nil e)
      · exact hrecflat s.2 (snd_mem_provIns _ s hs)
    have hr2 : r2 ∈ flat := by
      rcases h2 with h2 | ⟨s, hs, rfl⟩
      · rcases h2 with ⟨e, he, -⟩
        exact absurd he (List.not_mem_nil e)
      · exact hrecflat s.2 (snd_mem_provIns _ s hs)
    exact hinj r1 r2 hr1 hr2 hoid
  rw [mem_lookup_insFold (provIns (buildPackages flat)) [] n q hinj2]
  constructor
  · rintro (hq | ⟨s, hs, hs1, hs2⟩)
    · rw [lookupMap_nil] at hq
      exact absurd hq (List.not_mem_nil q)
    · have heq : s = (n, q) := Prod.ext hs1 hs2
      rw [heq] at hs
      rcases (mem_provIns _ n q).mp hs with ⟨e, he, hq, hor⟩
      have hqflat : q ∈ flat := hrecflat q ⟨e, he, hq⟩
      rcases hor with hne | hnp
      · exact ⟨hqflat, Or.inl ((hgood e he q hq).trans hne.symm)⟩
      · exact ⟨hqflat, Or.inr hnp⟩
  · rintro ⟨hqflat, hor⟩
    have hlook : q ∈ lookupMap (buildPackages flat) q.package := by
      unfold buildPackages
      rw [mem_lookupMap_buildPackagesAux flat [] q.package q]
      exact Or.inr ⟨hqflat, rfl⟩
    rcases exists_entry_of_mem_lookupMap _ _ _ hlook with ⟨e, he, hq, he1⟩
    have hmem : (n, q) ∈ provIns (buildPackages flat) := by
      refine (mem_provIns _ n q).mpr ⟨e, he, hq, ?_⟩
      rcases hor with h | h
      · exact Or.inl (he1.trans h).symm
      · exact Or.inr h
    exact Or.inr ⟨(n, q), hmem, rfl, rfl⟩

/-- C5: the per-repository package catalog is built exactly once, on first access.
First conjunct: the flat fetched sequence iterates the full cartesian product of
the configured architectures and components — a package is fetched iff some
configured `(architecture, component)` pair's index lists it.  Second conjunct: the
provided-name index maps each name `n` to exactly the union of catalog packages
directly named `n` and catalog packages listing `n` in their `Provides` field —
one level deep only: nothing else, in particular no chasing of a providing
package's own provides, is included (the hypothesis is that record identities are
pairwise distinct, as Python object ids are).  Third conjunct: an access with a
populated cache returns the cached map, leaves the state unchanged and performs
zero fetches.  Fourth conjunct: the first access (empty cache) builds both maps
from the fetched product and performs exactly `|architectures| * |components|`
index fetches, caching the result. -/
theorem c5_catalog_build_and_cache (cfg : APTRepositoryConfig)
    (fetch : String → String → List BinaryPackage) :
    (∀ p : BinaryPackage, p ∈ allFetched cfg fetch ↔
      ∃ arch ∈ cfg.architectures, ∃ comp ∈ cfg.components, p ∈ fetch comp arch) ∧
    (∀ flat : List BinaryPackage,
      (∀ p q : BinaryPackage, p ∈ flat → q ∈ flat → p.oid = q.oid → p = q) →
      ∀ (n : String) (q : BinaryPackage),
        q ∈ lookupMap (buildProvided flat) n ↔
          q ∈ flat ∧ (q.package = n ∨ n ∈ q.provides)) ∧
    (∀ (m : List (String × List BinaryPackage)) (st : APTRepositoryState),
      st.cache_packages = some m → packagesProperty cfg fetch st = (m, st, 0)) ∧
    packagesProperty cfg fetch ⟨none, none⟩
      = (buildPackages (allFetched cfg fetch),
          ⟨some (buildPackages (allFetched cfg fetch)),
            some (buildProvidedFromMap (buildPackages (allFetched cfg fetch)))⟩,
          cfg.architectures.length * cfg.components.length) := by
  refine ⟨?_, ?_, ?_, rfl⟩
  · intro p
    unfold allFetched
    simp [List.mem_flatMap]
  · intro flat hinj n q
    exact mem_lookup_buildProvided flat hinj n q
  · intro m st h
    unfold packagesProperty
    rw [h]

/-- A one-repository, one-component, one-architecture configuration for the C5
closed corollary. -/
def cfgDemo : APTRepositoryConfig := ⟨"http://r", "bionic", ["main"], ["amd64"]⟩

/-- A fetch function serving a single package for every index. -/
def fetchDemo : String → String → List BinaryPackage := fun _ _ => [pkgProvidingV]

/-- C5 closed corollary at the concrete one-package repository. -/
theorem c5_catalog_build_and_cache_witness :
    (pkgProvidingV ∈ allFetched cfgDemo fetchDemo ↔
      ∃ arch ∈ cfgDemo.architectures, ∃ comp ∈ cfgDemo.components,
        pkgProvidingV ∈ fetchDemo comp arch) ∧
    (pkgProvidingV ∈ lookupMap (buildProvided [pkgProvidingV]) "v" ↔
      pkgProvidingV ∈ [pkgProvidingV] ∧
        (pkgProvidingV.package = "v" ∨ "v" ∈ pkgProvidingV.provides)) ∧
    packagesProperty cfgDemo fetchDemo
        ⟨some [("p", [pkgProvidingV])], some [("p", [pkgProvidingV])]⟩
      = ([("p", [pkgProvidingV])],
          ⟨some [("p", [pkgProvidingV])], some [("p", [pkgProvidingV])]⟩, 0) :=
  ⟨(c5_catalog_build_and_cache cfgDemo fetchDemo).1 pkgProvidingV,
    (c5_catalog_build_and_cache cfgDemo fetchDemo).2.1 [pkgProvidingV]
      (by
        intro p q hp hq _
        rw [List.mem_singleton] at hp hq
        rw [hp, hq])
      "v" pkgProvidingV,
    (c5_catalog_build_and_cache cfgDemo fetchDemo).2.2.1
      [("p", [pkgProvidingV])] ⟨some [("p", [pkgProvidingV])], some [("p", [pkgProvidingV])]⟩
      rfl⟩

/-- `_topath` from `apt_mirror.py`: strip the URL scheme
(`re.sub(r'https?://', '', url)`; for a well-formed URL the scheme occurs once, at
the front).  Implemented over the character list of the string. -/
def topath (url : String) : String :=
  if url.data.take 8 = "https://".data then ⟨url.data.drop 8⟩
  else if url.data.take 7 = "http://".data then ⟨url.data.drop 7⟩
  else url

/-- The deterministic local path of a package file:
`os.path.join(location, _topath(package.repository.url), *package.filename.split('/'))`. -/
def mirrorPath (location : String) (p : BinaryPackage) : String :=
  location ++ "/" ++ topath p.repoUrl ++ "/" ++ p.filename

/-- The observable state of the mirror package phase: the local filesystem
(path to file bytes, bytes modelled as `Nat`), the number of `download()` calls
performed so far, and the critical log (`'Corrupt file ...'`). -/
structure MState where
  fs : String → Option Nat
  downloads : Nat
  criticals : List String

/-- Per-package outcome of the package phase. -/
inductive MOutcome where
  | done
  | failed
deriving DecidableEq, Repr

/-- `download(remote, local)` of `apt_mirror.py`: fetch and write to the local
path.  `net` abstracts the network: it gives the bytes served by the n-th
download of the run (successive downloads of a corrupted file may differ). -/
def download (net : Nat → Nat) (path : String) (st : MState) : MState :=
  { st with
      fs := fun s => if s = path then some (net st.downloads) else st.fs s,
      downloads := st.downloads + 1 }

/-- `os.remove(filename)`. -/
def removeFile (path : String) (fs : String → Option Nat) : String → Option Nat :=
  fun s => if s = path then none else fs s

/-- `APTDependencyMirror._mirror_package(package, retry_count=1)`: skip the download
when the local file exists; compare the strong checksum of the local bytes with the
catalog-declared `package.sha1`; on mismatch, while the retry budget lasts
(`retry_count > 0`, the first clause) delete the file and retry, else (second
clause) log critically — FAILED.  `hash` abstracts `shafile`.  The `none` branch of
the file lookup is unreachable (the file was either present or just written; Python
would raise inside `shafile` there). -/
def mirror_package (hash : Nat → String) (net : Nat → Nat) (location : String)
    (p : BinaryPackage) : Nat → MState → MState × MOutcome
  | r + 1, st =>
      let filename := mirrorPath location p
      let st1 := if (st.fs filename).isSome then st else download net filename st
      match st1.fs filename with
      | none => (st1, .failed)
      | some content =>
          if hash content ≠ p.sha1 then
            mirror_package hash net location p r
              { st1 with fs := removeFile filename st1.fs }
          else (st1, .done)
  | 0, st =>
      let filename := mirrorPath location p
      let st1 := if (st.fs filename).isSome then st else download net filename st
      match st1.fs filename with
      | none => (st1, .failed)
      | some content =>
          if hash content ≠ p.sha1 then
            ({ st1 with criticals := st1.criticals ++ [filename] }, .failed)
          else (st1, .done)

/-- The package phase of `create()`: `pool.map(self._mirror_package, packages)`,
each package with the default retry budget of one retry.  The worker pool is
modelled sequentially; each package is processed regardless of the outcomes of
the previous ones. -/
def mirrorAll (hash : Nat → String) (net : Nat → Nat) (location : String) :
    List BinaryPackage → MState → MState × List MOutcome
  | [], st => (st, [])
  | p :: rest, st =>
      let r1 := mirror_package hash net location p 1 st
      let r2 := mirrorAll hash net location rest r1.1
      (r2.1, r1.2 :: r2.2)

theorem mirror_package_hit (hash : Nat → String) (net : Nat → Nat) (location : String)
    (p : BinaryPackage) (retry : Nat) (st : MState) (b : Nat)
    (hb : st.fs (mirrorPath location p) = some b) (hok : hash b = p.sha1) :
    mirror_package hash net location p retry st = (st, .done) := by
  cases retry with
  | zero =>
      rw [mirror_package]
      simp only [hb, Option.isSome_some, if_true]
      rw [if_neg (by rw [hok]; exact fun h => h rfl)]
  | succ r =>
      rw [mirror_package]
      simp only [hb, Option.isSome_some, if_true]
      rw [if_neg (by rw [hok]; exact fun h => h rfl)]

theorem mirror_package_miss_retry (hash : Nat → String) (net : Nat → Nat)
    (location : String) (p : BinaryPackage) (r : Nat) (st : MState)
    (hnone : st.fs (mirrorPath location p) = none)
    (hbad : hash (net st.downloads) ≠ p.sha1) :
    mirror_package hash net location p (r + 1) st
      = mirror_package hash net location p r
          { st with downloads := st.downloads + 1 } := by
  rw [mirror_package]
  simp only [hnone, Option.isSome_none, Bool.false_eq_true, if_false, download]
  simp only [if_true]
  rw [if_pos hbad]
  have hfs : removeFile (mirrorPath location p)
      (fun s => if s = mirrorPath location p then some (net st.downloads) else st.fs s)
        = st.fs := by
    funext s
    simp only [removeFile]
    by_cases hs : s = mirrorPath location p
    · rw [if_pos hs, hs, hnone]
    · rw [if_neg hs, if_neg hs]
  rw [hfs]

theorem mirror_package_miss_ok (hash : Nat → String) (net : Nat → Nat)
    (location : String) (p : BinaryPackage) (retry : Nat) (st : MState)
    (hnone : st.fs (mirrorPath location p) = none)
    (hok : hash (net st.downloads) = p.sha1) :
    mirror_package hash net location p retry st
      = (download net (mirrorPath location p) st, .done) := by
  cases retry with
  | zero =>
      rw [mirror_package]
      simp only [hnone, Option.isSome_none, Bool.false_eq_true, if_false, download]
      simp only [if_true]
      rw [if_neg (by rw [hok]; exact fun h => h rfl)]
  | succ r =>
      rw [mirror_package]
      simp only [hnone, Option.isSome_none, Bool.false_eq_true, if_false, download]
      simp only [if_true]
      rw [if_neg (by rw [hok]; exact fun h => h rfl)]

theorem mirror_package_miss_fail (hash : Nat → String) (net : Nat → Nat)
    (location : String) (p : BinaryPackage) (st : MState)
    (hnone : st.fs (mirrorPath location p) = none)
    (hbad : hash (net st.downloads) ≠ p.sha1) :
    mirror_package hash net location p 0 st
      = ({ download net (mirrorPath location p) st with
            criticals := st.criticals ++ [mirrorPath location p] }, .failed) := by
  rw [mirror_package]
  simp only [hnone, Option.isSome_none, Bool.false_eq_true, if_false, download]
  simp only [if_true]
  rw [if_pos hbad]

/-- The hash abstraction used in closed corollaries: print the byte value. -/
def hashDemo : Nat → String := fun b => toString b

/-- A network serving the bytes 111 on the first two downloads and 222 afterwards. -/
def netDemo : Nat → Nat := fun n => if n < 2 then 111 else 222

/-- An empty local mirror root. -/
def mstEmpty : MState := ⟨fun _ => none, 0, []⟩

/-- A package whose declared checksum never matches what the network serves. -/
def pkgBad : BinaryPackage :=
  ⟨30, "bad", "1", "amd64", [], [], [], none, "pool/bad.deb", 9, "x", "http://r"⟩

/-- A package whose declared checksum matches the bytes 222. -/
def pkgGood : BinaryPackage :=
  ⟨31, "good", "1", "amd64", [], [], [], none, "pool/good.deb", 9, "222", "http://r"⟩

/-- C3: for every target package, the strong checksum of the local file is compared
to the catalog-declared value; on mismatch the file is deleted and the download
retried within the default budget of one retry.  First conjunct: file absent, first
download's checksum mismatches, the retried download's matches — the package ends
DONE after exactly two downloads, the matching bytes are on disk, and nothing is
logged critically.  Second conjunct: both downloads mismatch — the budget is
exhausted, the package ends FAILED with exactly one critical log entry and two
downloads, and the run is not aborted.  Third conjunct: processing a failing and a
succeeding package in one phase yields FAILED for the first and still DONE for the
second — a failure does not stop sibling packages. -/
theorem c3_checksum_retry (hash : Nat → String) (net : Nat → Nat) (location : String) :
    (∀ (p : BinaryPackage) (st : MState),
      st.fs (mirrorPath location p) = none →
      hash (net st.downloads) ≠ p.sha1 →
      hash (net (st.downloads + 1)) = p.sha1 →
      (mirror_package hash net location p 1 st).2 = .done ∧
      (mirror_package hash net location p 1 st).1.downloads = st.downloads + 2 ∧
      (mirror_package hash net location p 1 st).1.fs (mirrorPath location p)
        = some (net (st.downloads + 1)) ∧
      (mirror_package hash net location p 1 st).1.criticals = st.criticals) ∧
    (∀ (p : BinaryPackage) (st : MState),
      st.fs (mirrorPath location p) = none →
      hash (net st.downloads) ≠ p.sha1 →
      hash (net (st.downloads + 1)) ≠ p.sha1 →
      (mirror_package hash net location p 1 st).2 = .failed ∧
      (mirror_package hash net location p 1 st).1.criticals
        = st.criticals ++ [mirrorPath location p] ∧
      (mirror_package hash net location p 1 st).1.downloads = st.downloads + 2) ∧
    (mirrorAll hashDemo netDemo "m" [pkgBad, pkgGood] mstEmpty).2
      = [.failed, .done] := by
  refine ⟨?_, ?_, by decide⟩
  · intro p st hnone hbad hok
    rw [mirror_package_miss_retry hash net location p 0 st hnone hbad]
    rw [mirror_package_miss_ok hash net location p 0
      { st with downloads := st.downloads + 1 } hnone hok]
    refine ⟨rfl, rfl, ?_, rfl⟩
    show (if mirrorPath location p = mirrorPath location p
        then some (net (st.downloads + 1))
        else st.fs (mirrorPath location p)) = some (net (st.downloads + 1))
    exact if_pos rfl
  · intro p st hnone hbad hbad2
    rw [mirror_package_miss_retry hash net location p 0 st hnone hbad]
    rw [mirror_package_miss_fail hash net location p
      { st with downloads := st.downloads + 1 } hnone hbad2]
    exact ⟨rfl, rfl, rfl⟩

/-- A network serving 1 on the first download and 2 afterwards. -/
def netFlaky : Nat → Nat := fun n => if n = 0 then 1 else 2

/-- A package whose declared checksum matches the bytes 2. -/
def pkgFlaky : BinaryPackage :=
  ⟨32, "flaky", "1", "amd64", [], [], [], none, "pool/flaky.deb", 9, "2", "http://r"⟩

/-- C3 closed corollary: a corrupt first attempt followed by a good retry ends DONE;
a doubly corrupt package ends FAILED with one critical log; the sibling scenario. -/
theorem c3_checksum_retry_witness :
    ((mirror_package hashDemo netFlaky "m" pkgFlaky 1 mstEmpty).2 = .done ∧
      (mirror_package hashDemo netFlaky "m" pkgFlaky 1 mstEmpty).1.downloads
        = mstEmpty.downloads + 2 ∧
      (mirror_package hashDemo netFlaky "m" pkgFlaky 1 mstEmpty).1.fs
          (mirrorPath "m" pkgFlaky)
        = some (netFlaky (mstEmpty.downloads + 1)) ∧
      (mirror_package hashDemo netFlaky "m" pkgFlaky 1 mstEmpty).1.criticals
        = mstEmpty.criticals) ∧
    ((mirror_package hashDemo netDemo "m" pkgBad 1 mstEmpty).2 = .failed ∧
      (mirror_package hashDemo netDemo "m" pkgBad 1 mstEmpty).1.criticals
        = mstEmpty.criticals ++ [mirrorPath "m" pkgBad] ∧
      (mirror_package hashDemo netDemo "m" pkgBad 1 mstEmpty).1.downloads
        = mstEmpty.downloads + 2) ∧
    (mirrorAll hashDemo netDemo "m" [pkgBad, pkgGood] mstEmpty).2
      = [.failed, .done] :=
  ⟨(c3_checksum_retry hashDemo netFlaky "m").1 pkgFlaky mstEmpty rfl
      (by decide) (by decide),
    (c3_checksum_retry hashDemo netDemo "m").2.1 pkgBad mstEmpty rfl
      (by decide) (by decide),
    (c3_checksum_retry hashDemo netDemo "m").2.2⟩

/-- A package whose declared checksum matches nothing the network ever serves. -/
def pkgCorrupt : BinaryPackage :=
  ⟨33, "corrupt", "1", "amd64", [], [], [], none, "pool/corrupt.deb", 9, "nope",
    "http://r"⟩

/-- C6 counterexample: after a first package phase in which `pkgCorrupt`'s checksum
never matched (final state FAILED, corrupt file left on disk), a second phase over
the same local root with unchanged upstream data performs further downloads even
though the local file exists — so "a second run downloads nothing" is false as
stated: the existence check only skips the *initial* download, a checksum mismatch
still deletes and re-downloads. -/
theorem c6_counterexample :
    ¬ ((mirrorAll hashDemo netDemo "m" [pkgCorrupt]
          (mirrorAll hashDemo netDemo "m" [pkgCorrupt] mstEmpty).1).1.downloads
        = (mirrorAll hashDemo netDemo "m" [pkgCorrupt] mstEmpty).1.downloads) ∧
      (mirrorAll hashDemo netDemo "m" [pkgCorrupt] mstEmpty).1.fs
          (mirrorPath "m" pkgCorrupt) ≠ none := by
  constructor
  · decide
  · decide

/-- C6 amended: if every target package's local file already exists **with a
checksum matching the catalog** (the state a fully successful first run leaves
behind), a second package phase downloads nothing and changes nothing: every
package is skipped and ends DONE, and the entire mirror state — bytes on disk,
download count, critical log — is returned unchanged. -/
theorem c6_amended_idempotence (hash : Nat → String) (net : Nat → Nat)
    (location : String) (ps : List BinaryPackage) (st : MState)
    (h : ∀ p ∈ ps, ∃ b, st.fs (mirrorPath location p) = some b ∧ hash b = p.sha1) :
    mirrorAll hash net location ps st = (st, ps.map (fun _ => MOutcome.done)) := by
  induction ps with
  | nil => rfl
  | cons p rest ih =>
      rcases h p (List.mem_cons_self _ _) with ⟨b, hb, hok⟩
      rw [mirrorAll]
      rw [mirror_package_hit hash net location p 1 st b hb hok]
      dsimp only
      rw [ih (fun q hq => h q (List.mem_cons_of_mem _ hq))]
      rfl

/-- A package whose local file is already present with matching checksum. -/
def pkgClean : BinaryPackage :=
  ⟨34, "clean", "1", "amd64", [], [], [], none, "pool/clean.deb", 9, "5", "http://r"⟩

/-- A local root already holding `pkgClean`'s file with the declared bytes. -/
def mstClean : MState :=
  ⟨fun s => if s = mirrorPath "m" pkgClean then some 5 else none, 0, []⟩

/-- C6 amended, closed corollary: a second phase over the clean root is the
identity and reports DONE. -/
theorem c6_amended_idempotence_witness :
    mirrorAll hashDemo netDemo "m" [pkgClean] mstClean
      = (mstClean, [MOutcome.done]) :=
  c6_amended_idempotence hashDemo netDemo "m" [pkgClean] mstClean
    (by
      intro p hp
      rw [List.mem_singleton] at hp
      subst hp
      exact ⟨5, by decide, by decide⟩)

/-- The compression suffixes tried by `_download_compressed`, in the insertion
order of its `decompress` dict: plain, `.xz`, `.gz`, `.bzip2`. -/
def decompressSuffixes : List String := ["", ".xz", ".gz", ".bzip2"]

/-- The suffix loop of `_download_compressed`.  `fetchUrl` abstracts
`urllib.request.urlopen` (`none` = `URLError`); `decomp` abstracts the per-suffix
decompress-and-decode step.  The first suffix whose fetch succeeds is decoded and
returned; if the loop exhausts all suffixes the function falls through and
returns `None`. -/
def download_compressed_go (fetchUrl : String → Option Nat)
    (decomp : String → Nat → String) (base_url : String) :
    List String → Option String
  | [] => none
  | suffix :: rest =>
      match fetchUrl (base_url ++ suffix) with
      | none => download_compressed_go fetchUrl decomp base_url rest
      | some content => some (decomp suffix content)

/-- `_download_compressed(base_url)`. -/
def download_compressed (fetchUrl : String → Option Nat)
    (decomp : String → Nat → String) (base_url : String) : Option String :=
  download_compressed_go fetchUrl decomp base_url decompressSuffixes

/-- `APTRepository.get_binary_packages_by_component`: build the index URL, download
it via `_download_compressed`, and raise (`.error`) when that returned `None`;
otherwise parse the text into packages (`parse` abstracts
`PackagesFile(...).packages`). -/
def get_binary_packages_by_component (fetchUrl : String → Option Nat)
    (decomp : String → Nat → String) (parse : String → List BinaryPackage)
    (url dist component arch : String) : Except String (List BinaryPackage) :=
  match download_compressed fetchUrl decomp
      (url ++ "/dists/" ++ dist ++ "/" ++ component ++ "/binary-" ++ arch
        ++ "/Packages") with
  | none => .error (url ++ "/dists/" ++ dist ++ "/" ++ component ++ "/binary-" ++ arch
      ++ "/Packages")
  | some content => .ok (parse content)

theorem download_compressed_go_none_iff (fetchUrl : String → Option Nat)
    (decomp : String → Nat → String) (base_url : String) :
    ∀ suffixes : List String,
      download_compressed_go fetchUrl decomp base_url suffixes = none ↔
        ∀ s ∈ suffixes, fetchUrl (base_url ++ s) = none := by
  intro suffixes
  induction suffixes with
  | nil => simp [download_compressed_go]
  | cons s rest ih =>
      rw [download_compressed_go]
      cases hf : fetchUrl (base_url ++ s) with
      | none =>
          rw [ih]
          constructor
          · intro h t ht
            rcases List.mem_cons.mp ht with rfl | ht
            · exact hf
            · exact h t ht
          · intro h t ht
            exact h t (List.mem_cons_of_mem _ ht)
      | some c =>
          constructor
          · intro h
            exact absurd h (by simp)
          · intro h
            rw [h s (List.mem_cons_self _ _)] at hf
            exact absurd hf (by simp)

theorem download_compressed_go_first (fetchUrl : String → Option Nat)
    (decomp : String → Nat → String) (base_url : String) :
    ∀ (l1 : List String) (s : String) (l2 : List String) (c : Nat),
      (∀ t ∈ l1, fetchUrl (base_url ++ t) = none) →
      fetchUrl (base_url ++ s) = some c →
      download_compressed_go fetchUrl decomp base_url (l1 ++ s :: l2)
        = some (decomp s c) := by
  intro l1
  induction l1 with
  | nil =>
      intro s l2 c _ hs
      rw [List.nil_append, download_compressed_go, hs]
  | cons t ts ih =>
      intro s l2 c h1 hs
      rw [List.cons_append, download_compressed_go,
        h1 t (List.mem_cons_self _ _)]
      exact ih s l2 c (fun u hu => h1 u (List.mem_cons_of_mem _ hu)) hs

/-- C7: `_download_compressed` attempts the suffixes `''`, `.xz`, `.gz`, `.bzip2`
in exactly that order.  First conjunct: it signals failure (returns `None` instead
of an ordinary value) exactly when every suffix fails to fetch.  Second conjunct:
for any split of the suffix list, if every earlier suffix fails and suffix `s`
fetches content `c`, the result is the decoded text of `s` — the first success
wins, later suffixes are never consulted.  Third and fourth conjuncts: a `None`
from the helper makes `get_binary_packages_by_component` raise (propagate an
`.error` naming the index URL) for the mandatory package index, and a success is
parsed and returned `.ok`. -/
theorem c7_download_compressed (fetchUrl : String → Option Nat)
    (decomp : String → Nat → String) (base_url : String) :
    (download_compressed fetchUrl decomp base_url = none ↔
      ∀ s ∈ decompressSuffixes, fetchUrl (base_url ++ s) = none) ∧
    (∀ (l1 : List String) (s : String) (l2 : List String) (c : Nat),
      decompressSuffixes = l1 ++ s :: l2 →
      (∀ t ∈ l1, fetchUrl (base_url ++ t) = none) →
      fetchUrl (base_url ++ s) = some c →
      download_compressed fetchUrl decomp base_url = some (decomp s c)) ∧
    (∀ (parse : String → List BinaryPackage) (url dist component arch : String),
      download_compressed fetchUrl decomp
          (url ++ "/dists/" ++ dist ++ "/" ++ component ++ "/binary-" ++ arch
            ++ "/Packages") = none →
      get_binary_packages_by_component fetchUrl decomp parse url dist component arch
        = .error (url ++ "/dists/" ++ dist ++ "/" ++ component ++ "/binary-" ++ arch
            ++ "/Packages")) ∧
    (∀ (parse : String → List BinaryPackage) (url dist component arch : String)
        (content : String),
      download_compressed fetchUrl decomp
          (url ++ "/dists/" ++ dist ++ "/" ++ component ++ "/binary-" ++ arch
            ++ "/Packages") = some content →
      get_binary_packages_by_component fetchUrl decomp parse url dist component arch
        = .ok (parse content)) := by
  refine ⟨?_, ?_, ?_, ?_⟩
  · exact download_compressed_go_none_iff fetchUrl decomp base_url decompressSuffixes
  · intro l1 s l2 c hsplit h1 hs
    unfold download_compressed
    rw [hsplit]
    exact download_compressed_go_first fetchUrl decomp base_url l1 s l2 c h1 hs
  · intro parse url dist component arch h
    unfold get_binary_packages_by_component
    rw [h]
  · intro parse url dist component arch content h
    unfold get_binary_packages_by_component
    rw [h]

/-- A fetch oracle for the C7 corollary: only the `.xz` variant of the demo index
URL exists. -/
def fetchDemoXz : String → Option Nat := fun u =>
  if u = "http://r/dists/bionic/main/binary-amd64/Packages.xz" then some 42 else none

/-- A decoder for the C7 corollary. -/
def decompDemo : String → Nat → String := fun s b => s ++ toString b

/-- C7 closed corollary: with only the `.xz` variant available, the helper returns
its decoded text (the plain URL was tried first and failed), and the caller wraps a
missing index in `.error` and a present one in `.ok`. -/
theorem c7_download_compressed_witness :
    download_compressed fetchDemoXz decompDemo
        "http://r/dists/bionic/main/binary-amd64/Packages"
      = some (decompDemo ".xz" 42) ∧
    get_binary_packages_by_component (fun _ => none) decompDemo (fun _ => [])
        "http://r" "bionic" "main" "amd64"
      = .error "http://r/dists/bionic/main/binary-amd64/Packages" ∧
    get_binary_packages_by_component fetchDemoXz decompDemo (fun _ => [])
        "http://r" "bionic" "main" "amd64"
      = .ok ((fun _ => ([] : List BinaryPackage)) (decompDemo ".xz" 42)) :=
  ⟨(c7_download_compressed fetchDemoXz decompDemo
      "http://r/dists/bionic/main/binary-amd64/Packages").2.1
      [""] ".xz" [".gz", ".bzip2"] 42 rfl (by decide) (by decide),
    (c7_download_compressed (fun _ => none) decompDemo
      "http://r/dists/bionic/main/binary-amd64/Packages").2.2.1
      (fun _ => []) "http://r" "bionic" "main" "amd64" rfl,
    (c7_download_compressed fetchDemoXz decompDemo
      "http://r/dists/bionic/main/binary-amd64/Packages").2.2.2
      (fun _ => []) "http://r" "bionic" "main" "amd64" (decompDemo ".xz" 42)
      ((c7_download_compressed fetchDemoXz decompDemo
        "http://r/dists/bionic/main/binary-amd64/Packages").2.1
        [""] ".xz" [".gz", ".bzip2"] 42 rfl (by decide) (by decide))⟩

end AptRepo
